import Mathlib

/-!
Verification of the URL-state synchronization library.

This file shallowly embeds the library's serialization and URL-write
machinery in Lean and proves (or refutes) the frozen specification claims
about it.  Modeling conventions:

* JS strings are `List Char` (Lean `Char` is exactly a Unicode scalar value,
  which models every well-formed JS string; lone surrogates, on which
  `encodeURIComponent` itself throws, are outside the model).
* JS exceptions are `Option`: a function that can throw returns `none` on the
  thrown path.
* JS numbers are modeled as arbitrary-precision integers (`Int`).  Fractional
  and exponent number forms decode to IEEE doubles in JS; binary floating
  point is outside the model, so the embedded JSON grammar covers integer
  numerals only.
* `URLSearchParams` is modeled as its spec-level state: an ordered list of
  decoded (name, value) pairs, with `set`/`delete`/`get` and the
  `application/x-www-form-urlencoded` serializer used by `toString`.
-/

/-! ### Hex digits -/
/-- Numeric value of a hex digit character, `none` for non-hex characters. -/
def hexDigitVal (c : Char) : Option Nat :=
  if 48 ≤ c.toNat ∧ c.toNat ≤ 57 then some (c.toNat - 48)
  else if 97 ≤ c.toNat ∧ c.toNat ≤ 102 then some (c.toNat - 87)
  else if 65 ≤ c.toNat ∧ c.toNat ≤ 70 then some (c.toNat - 55)
  else none

/-- Uppercase hex digit character for `n < 16` (used by percent-escapes). -/
def hexCharUC (n : Nat) : Char :=
  if n < 10 then Char.ofNat (48 + n) else Char.ofNat (55 + n)

/-- Lowercase hex digit character for `n < 16` (used by JSON `\u00xx` escapes). -/
def hexCharLC (n : Nat) : Char :=
  if n < 10 then Char.ofNat (48 + n) else Char.ofNat (87 + n)

/-- Value of a two-hex-digit pair, `none` unless both are hex digits. -/
def hexPairVal (a b : Char) : Option Nat :=
  match hexDigitVal a, hexDigitVal b with
  | some x, some y => some (16 * x + y)
  | _, _ => none

/-! ### UTF-8 bytes of a scalar value -/
/-- UTF-8 byte sequence of the code point `n` (1 to 4 bytes). -/
def utf8Bytes (n : Nat) : List Nat :=
  if n < 0x80 then [n]
  else if n < 0x800 then [0xC0 + n / 0x40, 0x80 + n % 0x40]
  else if n < 0x10000 then
    [0xE0 + n / 0x1000, 0x80 + n / 0x40 % 0x40, 0x80 + n % 0x40]
  else
    [0xF0 + n / 0x40000, 0x80 + n / 0x1000 % 0x40, 0x80 + n / 0x40 % 0x40, 0x80 + n % 0x40]

/-- UTF-8 bytes of a character. -/
def charBytes (c : Char) : List Nat := utf8Bytes c.toNat

/-- Percent-escape of one byte: `%` followed by two uppercase hex digits. -/
def pctEscape (b : Nat) : List Char := ['%', hexCharUC (b / 16), hexCharUC (b % 16)]

/-! ### encodeURIComponent / decodeURIComponent

`encodeURIComponent` leaves the unreserved set `A-Z a-z 0-9 - _ . ! ~ * ' ( )`
untouched and percent-escapes every UTF-8 byte of every other character.
`decodeURIComponent` passes non-`%` characters through, decodes maximal
`%HH(%HH)*` escape groups as UTF-8, and throws a `URIError` on malformed
escapes or invalid byte sequences; the thrown path is `none` here.
-/
/-- Characters `encodeURIComponent` leaves unescaped. -/
def uriUnreserved (c : Char) : Bool :=
  (65 ≤ c.toNat && c.toNat ≤ 90) || (97 ≤ c.toNat && c.toNat ≤ 122) ||
  (48 ≤ c.toNat && c.toNat ≤ 57) ||
  c = '-' || c = '_' || c = '.' || c = '!' || c = '~' || c = '*' ||
  c.toNat = 39 || c = '(' || c = ')'

/-- One character as `encodeURIComponent` renders it. -/
def uriEncodeChar (c : Char) : List Char :=
  if uriUnreserved c then [c] else (charBytes c).flatMap pctEscape

/-- The `encodeURIComponent` builtin. -/
def encodeURIComponent (s : List Char) : List Char := s.flatMap uriEncodeChar

/-- True for a UTF-8 continuation byte. -/
def contByte (b : Nat) : Bool := 0x80 ≤ b && b < 0xC0

/-- One continuation escape `%HH` with `0x80 ≤ HH < 0xC0`, its byte and the rest. -/
def takeCont : List Char → Option (Nat × List Char)
  | '%' :: h1 :: h2 :: r =>
    (hexPairVal h1 h2).bind fun b => if contByte b then some (b, r) else none
  | _ => none

/-- Decode a single scalar value from the head of the input: either a plain
character, or one maximal `%HH(%HH)*` UTF-8 escape group.  `none` is the
thrown `URIError` (malformed escape, bad lead byte, overlong form, surrogate,
or out-of-range code point). -/
def uriStep : List Char → Option (Char × List Char)
  | [] => none
  | '%' :: h1 :: h2 :: r2 =>
    (hexPairVal h1 h2).bind fun b0 =>
      if b0 < 0x80 then some (Char.ofNat b0, r2)
      else if b0 < 0xC2 then none
      else if b0 < 0xE0 then
        (takeCont r2).bind fun p1 =>
          some (Char.ofNat ((b0 - 0xC0) * 0x40 + (p1.1 - 0x80)), p1.2)
      else if b0 < 0xF0 then
        (takeCont r2).bind fun p1 => (takeCont p1.2).bind fun p2 =>
          let n := (b0 - 0xE0) * 0x1000 + (p1.1 - 0x80) * 0x40 + (p2.1 - 0x80)
          if 0x800 ≤ n ∧ (n < 0xD800 ∨ 0xDFFF < n) then some (Char.ofNat n, p2.2)
          else none
      else if b0 < 0xF5 then
        (takeCont r2).bind fun p1 => (takeCont p1.2).bind fun p2 =>
          (takeCont p2.2).bind fun p3 =>
            let n := (b0 - 0xF0) * 0x40000 + (p1.1 - 0x80) * 0x1000 +
              (p2.1 - 0x80) * 0x40 + (p3.1 - 0x80)
            if 0x10000 ≤ n ∧ n < 0x110000 then some (Char.ofNat n, p3.2)
            else none
      else none
  | '%' :: _ => none
  | c :: rest => some (c, rest)

/-- Fueled decoding loop; one unit of fuel per decoded character. -/
def decodeUriGo : Nat → List Char → Option (List Char)
  | _, [] => some []
  | 0, _ :: _ => none
  | f + 1, c :: rest =>
    match uriStep (c :: rest) with
    | some (ch, r) => (decodeUriGo f r).map (fun t => ch :: t)
    | none => none

/-- The `decodeURIComponent` builtin; `none` is the thrown `URIError`.  Every
decoded character consumes at least one input character, so `s.length` fuel
always suffices. -/
def decodeUriOpt (s : List Char) : Option (List Char) := decodeUriGo s.length s

/-! ### The form-urlencoded serializer of `URLSearchParams.toString`

Per the URL standard, each name and value is serialized from its UTF-8 bytes:
`0x20` becomes `+`; `*`, `-`, `.`, `_` and alphanumeric bytes stay themselves;
every other byte is percent-escaped. Pairs are joined `name=value` with `&`.
-/
/-- Bytes the form-urlencoded serializer emits unescaped. -/
def formSafeByte (b : Nat) : Bool :=
  b = 0x2A || b = 0x2D || b = 0x2E || (0x30 ≤ b && b ≤ 0x39) ||
  (0x41 ≤ b && b ≤ 0x5A) || b = 0x5F || (0x61 ≤ b && b ≤ 0x7A)

/-- Form-urlencoded rendering of one byte. -/
def formByteChars (b : Nat) : List Char :=
  if b = 0x20 then ['+'] else if formSafeByte b then [Char.ofNat b] else pctEscape b

/-- Form-urlencoded rendering of a string (by its UTF-8 bytes). -/
def formUrlEncode (s : List Char) : List Char :=
  s.flatMap (fun c => (charBytes c).flatMap formByteChars)

/-- `URLSearchParams.toString`: `name=value` pairs joined with `&`. -/
def serializeParams : List (List Char × List Char) → List Char
  | [] => []
  | [(k, v)] => formUrlEncode k ++ '=' :: formUrlEncode v
  | (k, v) :: tl => formUrlEncode k ++ '=' :: formUrlEncode v ++ '&' :: serializeParams tl

/-! ### JSON values

`JSON.parse` / `JSON.stringify` work on a tree of null, booleans, numbers,
strings, arrays and objects.  Arrays and object member lists are their own
inductives (rather than `List`) so that all functions below are structurally
recursive and compute inside the kernel.  Numbers are arbitrary-precision
integers: fractional and exponent forms denote IEEE doubles in JS and are
outside the model (the embedded parser rejects them).
-/
mutual
inductive JVal where
  | null
  | bool (b : Bool)
  | num (n : Int)
  | str (s : List Char)
  | arr (elems : JList)
  | obj (fields : JFields)
  deriving DecidableEq
inductive JList where
  | nil
  | cons (hd : JVal) (tl : JList)
  deriving DecidableEq
inductive JFields where
  | nil
  | cons (key : List Char) (val : JVal) (tl : JFields)
  deriving DecidableEq
end

/-- The `{` character, kept out of string literals. -/
def lbrace : Char := Char.ofNat 0x7B

/-- The `}` character, kept out of string literals. -/
def rbrace : Char := Char.ofNat 0x7D

/-- The decimal digit character of `n < 10`. -/
def digitChar (n : Nat) : Char := Char.ofNat (48 + n)

/-- Decimal digits of `n`, most significant first; structural on fuel. -/
def natDigitsGo : Nat → Nat → List Char
  | 0, _ => []
  | f + 1, n => if n < 10 then [digitChar n] else natDigitsGo f (n / 10) ++ [digitChar (n % 10)]

/-- Decimal digit characters of a natural number. -/
def natChars (n : Nat) : List Char := natDigitsGo (n + 1) n

/-- `JSON.stringify` of an integer: optional minus sign, then decimal digits. -/
def intChars (i : Int) : List Char :=
  if i < 0 then '-' :: natChars i.natAbs else natChars i.natAbs

/-- One character as `JSON.stringify` escapes it inside a string literal:
quote and backslash get a backslash, the five short controls use their
mnemonics, other controls become `\u00xx`, everything else is untouched. -/
def escapeJsonChar (c : Char) : List Char :=
  if c = '"' then ['\\', '"']
  else if c = '\\' then ['\\', '\\']
  else if c.toNat = 8 then ['\\', 'b']
  else if c.toNat = 9 then ['\\', 't']
  else if c.toNat = 10 then ['\\', 'n']
  else if c.toNat = 12 then ['\\', 'f']
  else if c.toNat = 13 then ['\\', 'r']
  else if c.toNat < 32 then
    ['\\', 'u', '0', '0', hexCharLC (c.toNat / 16), hexCharLC (c.toNat % 16)]
  else [c]

/-- A JSON string literal: quote, escaped characters, quote. -/
def quoteJson (s : List Char) : List Char := '"' :: (s.flatMap escapeJsonChar ++ ['"'])

mutual
/-- `JSON.stringify` (no spacing argument, as the library calls it). -/
def jsonStringify : JVal → List Char
  | .null => "null".toList
  | .bool true => "true".toList
  | .bool false => "false".toList
  | .num i => intChars i
  | .str s => quoteJson s
  | .arr es => '[' :: (stringifyItems es ++ [']'])
  | .obj fs => lbrace :: (stringifyFields fs ++ [rbrace])
def stringifyItems : JList → List Char
  | .nil => []
  | .cons v .nil => jsonStringify v
  | .cons v tl => jsonStringify v ++ ',' :: stringifyItems tl
def stringifyFields : JFields → List Char
  | .nil => []
  | .cons k v .nil => quoteJson k ++ ':' :: jsonStringify v
  | .cons k v tl => quoteJson k ++ ':' :: jsonStringify v ++ ',' :: stringifyFields tl
end

/-! ### `JSON.parse` -/
/-- JSON whitespace. -/
def jsonWsChar (c : Char) : Bool := c = ' ' || c.toNat = 9 || c.toNat = 10 || c.toNat = 13

/-- Drop leading JSON whitespace. -/
def dropWs : List Char → List Char
  | c :: cs => if jsonWsChar c then dropWs cs else c :: cs
  | [] => []

/-- Decimal digit character test. -/
def isDigitChar (c : Char) : Bool := 48 ≤ c.toNat && c.toNat ≤ 57

/-- Split a leading run of decimal digits from the rest. -/
def digitRun : List Char → List Char × List Char
  | c :: cs =>
    if isDigitChar c then
      let p := digitRun cs
      (c :: p.1, p.2)
    else ([], c :: cs)
  | [] => ([], [])

/-- Numeric value of a list of decimal digit characters. -/
def digitsVal (ds : List Char) : Nat := ds.foldl (fun a c => 10 * a + (c.toNat - 48)) 0

/-- True when the input continues with a fraction or exponent marker; such
numerals denote IEEE doubles and are outside the integer model. -/
def floatFollow : List Char → Bool
  | c :: _ => c = '.' || c = 'e' || c = 'E'
  | [] => false

/-- A multi-digit numeral starting with `0` (rejected by the JSON grammar). -/
def leadingZero : List Char → Bool
  | d :: _ :: _ => d = '0'
  | _ => false

/-- Parse an unsigned JSON integer numeral (no leading zeros, no fraction or
exponent continuation). -/
def parseNatTok (s : List Char) : Option (Nat × List Char) :=
  if (digitRun s).1.isEmpty then none
  else if leadingZero (digitRun s).1 then none
  else if floatFollow (digitRun s).2 then none
  else some (digitsVal (digitRun s).1, (digitRun s).2)

/-- Parse a signed JSON integer numeral. -/
def parseIntTok : List Char → Option (Int × List Char)
  | [] => none
  | c :: r =>
    if c = '-' then (parseNatTok r).map (fun p => (-(p.1 : Int), p.2))
    else (parseNatTok (c :: r)).map (fun p => ((p.1 : Int), p.2))

/-- Value of four hex digit characters. -/
def hex4Val (a b c d : Char) : Option Nat :=
  (hexDigitVal a).bind fun x1 => (hexDigitVal b).bind fun x2 =>
    (hexDigitVal c).bind fun x3 => (hexDigitVal d).bind fun x4 =>
      some (((x1 * 16 + x2) * 16 + x3) * 16 + x4)

/-- Decode one non-quote character of a JSON string-literal body: either a
plain character (raw controls rejected) or one escape sequence.  `\uXXXX`
escapes in the surrogate range are outside the model (JS combines surrogate
pairs; the embedded strings hold scalar values only). -/
def strStep : List Char → Option (Char × List Char)
  | [] => none
  | c :: rest =>
    if c = '\\' then
      match rest with
      | e :: r2 =>
        if e = '"' ∨ e = '\\' ∨ e = '/' then some (e, r2)
        else if e = 'b' then some (Char.ofNat 8, r2)
        else if e = 't' then some (Char.ofNat 9, r2)
        else if e = 'n' then some (Char.ofNat 10, r2)
        else if e = 'f' then some (Char.ofNat 12, r2)
        else if e = 'r' then some (Char.ofNat 13, r2)
        else if e = 'u' then
          match r2 with
          | a :: b :: c2 :: d :: r3 =>
            (hex4Val a b c2 d).bind fun n =>
              if n < 0xD800 ∨ 0xDFFF < n then some (Char.ofNat n, r3) else none
          | _ => none
        else none
      | [] => none
    else if c.toNat < 32 then none
    else some (c, rest)

/-- Fueled string-body loop: decode characters until the closing quote. -/
def parseStrGo : Nat → List Char → Option (List Char × List Char)
  | _, [] => none
  | 0, _ :: _ => none
  | f + 1, c :: rest =>
    if c = '"' then some ([], rest)
    else
      match strStep (c :: rest) with
      | some (ch, r) => (parseStrGo f r).map (fun p => (ch :: p.1, p.2))
      | none => none

/-- Parse the body of a JSON string literal, after the opening quote and up to
and including the closing quote.  Every decoded character consumes at least
one input character, so `length` fuel always suffices. -/
def parseStrBody (s : List Char) : Option (List Char × List Char) := parseStrGo s.length s

/-- Does a member list contain a key? -/
def hasKeyF : JFields → List Char → Bool
  | .nil, _ => false
  | .cons k0 _ tl, k => k0 = k || hasKeyF tl k

/-- JS object assignment: replace the value at the first occurrence of the
key, else append the member. -/
def fieldsUpsert : JFields → List Char → JVal → JFields
  | .nil, k, v => .cons k v .nil
  | .cons k0 v0 tl, k, v =>
    if k0 = k then .cons k0 v tl else .cons k0 v0 (fieldsUpsert tl k v)

/-- Fold a raw member list into an object, later duplicate keys overwriting
earlier ones in place — `JSON.parse`'s duplicate-key semantics. -/
def collapseGo (acc : JFields) : JFields → JFields
  | .nil => acc
  | .cons k v tl => collapseGo (fieldsUpsert acc k v) tl

/-- Object construction from parsed members (duplicate keys collapsed). -/
def collapseFields (fs : JFields) : JFields := collapseGo .nil fs

/-- Finish a keyword literal: the tail of the keyword must follow, and the
given value is produced. -/
def litTail (kw : List Char) (out : JVal) (r : List Char) : Option (JVal × List Char) :=
  if kw.isPrefixOf r then some (out, r.drop kw.length) else none

mutual
/-- Fueled JSON value parser; one unit of fuel per grammar recursion. -/
def parseJVal : Nat → List Char → Option (JVal × List Char)
  | 0, _ => none
  | f + 1, s =>
    match dropWs s with
    | [] => none
    | c :: r =>
      if c = 'n' then litTail ['u', 'l', 'l'] .null r
      else if c = 't' then litTail ['r', 'u', 'e'] (.bool true) r
      else if c = 'f' then litTail ['a', 'l', 's', 'e'] (.bool false) r
      else if c = '"' then (parseStrBody r).map (fun p => (JVal.str p.1, p.2))
      else if c = '[' then
        match dropWs r with
        | c2 :: r2 =>
          if c2 = ']' then some (.arr .nil, r2)
          else (parseItems f (c2 :: r2)).map (fun p => (JVal.arr p.1, p.2))
        | [] => none
      else if c = lbrace then
        match dropWs r with
        | c2 :: r2 =>
          if c2 = rbrace then some (.obj .nil, r2)
          else (parseFields f (c2 :: r2)).map (fun p => (JVal.obj (collapseFields p.1), p.2))
        | [] => none
      else if c = '-' ∨ isDigitChar c then (parseIntTok (c :: r)).map (fun p => (JVal.num p.1, p.2))
      else none
/-- One or more comma-separated array elements, up to and including `]`. -/
def parseItems : Nat → List Char → Option (JList × List Char)
  | 0, _ => none
  | f + 1, s =>
    (parseJVal f s).bind fun p =>
      match dropWs p.2 with
      | c :: r =>
        if c = ',' then (parseItems f r).map (fun q => (JList.cons p.1 q.1, q.2))
        else if c = ']' then some (JList.cons p.1 .nil, r)
        else none
      | [] => none
/-- One or more comma-separated object members, up to and including the
closing brace. -/
def parseFields : Nat → List Char → Option (JFields × List Char)
  | 0, _ => none
  | f + 1, s =>
    match dropWs s with
    | c :: r =>
      if c = '"' then
        (parseStrBody r).bind fun pk =>
          match dropWs pk.2 with
          | c2 :: r2 =>
            if c2 = ':' then
              (parseJVal f r2).bind fun pv =>
                match dropWs pv.2 with
                | c3 :: r3 =>
                  if c3 = ',' then
                    (parseFields f r3).map (fun q => (JFields.cons pk.1 pv.1 q.1, q.2))
                  else if c3 = rbrace then some (JFields.cons pk.1 pv.1 .nil, r3)
                  else none
                | [] => none
            else none
          | [] => none
      else none
    | [] => none
end

/-- `JSON.parse` restricted to the integer-JSON fragment of the header's
conventions; `none` is the thrown `SyntaxError`.  Fraction and exponent
numerals, which the real `JSON.parse` evaluates to IEEE doubles, have no
`JVal` and are rejected here; a claim whose truth would be distorted by that
restriction guards itself with the full-grammar recognizer `jsonDoc` below.
Fuel `length + 1` always suffices: every grammar recursion consumes at least
one character. -/
def jsonParse (s : List Char) : Option JVal :=
  match parseJVal (s.length + 1) s with
  | some p => if (dropWs p.2).isEmpty then some p.1 else none
  | none => none

/-- Nothing that can extend a numeral: the input is empty or starts with a
character that is neither a digit nor `.`, `e`, `E`. -/
def numStop : List Char → Bool
  | [] => true
  | c :: _ => !(isDigitChar c || c = '.' || c = 'e' || c = 'E')

/-! ### Object member lemmas (duplicate-key collapse) -/
/-- Concatenation of member lists. -/
def appendF : JFields → JFields → JFields
  | .nil, g => g
  | .cons k v tl, g => .cons k v (appendF tl g)

/-- All keys pairwise distinct (the image of a JS object always satisfies this). -/
def keysDistinct : JFields → Bool
  | .nil => true
  | .cons k _ tl => !hasKeyF tl k && keysDistinct tl

/-- No key of the first list occurs in the second. -/
def keysNotIn : JFields → JFields → Bool
  | .nil, _ => true
  | .cons k _ tl, acc => !hasKeyF acc k && keysNotIn tl acc

/-! ### Well-formed JSON values

`jwf` asks every object in the tree to have pairwise-distinct keys; this is
exactly the image of the JS values `JSON.stringify` can be applied to (a JS
object cannot carry duplicate properties). -/
mutual
def jwf : JVal → Bool
  | .null => true
  | .bool _ => true
  | .num _ => true
  | .str _ => true
  | .arr es => jwfItems es
  | .obj fs => keysDistinct fs && jwfFields fs
def jwfItems : JList → Bool
  | .nil => true
  | .cons v tl => jwf v && jwfItems tl
def jwfFields : JFields → Bool
  | .nil => true
  | .cons _ v tl => jwf v && jwfFields tl
end

/-! ### The stringify/parse round-trip -/
/-- Input that cannot extend a rendered value: empty, or starting with a
separator (`,`) or a closing bracket/brace. -/
def jsonStop : List Char → Bool
  | [] => true
  | c :: _ => c = ',' || c = ']' || c = rbrace

/-! ### The library's serialization utilities

These embed, file by file, the repository's own functions.  JS strings are
`List Char`, JS runtime values are `JVal`, thrown exceptions are `none`.
-/
/-- A per-field codec (`src/lib/types.ts`): `parse`/`format` may throw. -/
structure Codec where
  parse : List Char → Option JVal
  format : JVal → Option (List Char)

/-- The `codecs` option: an optional codec per field name. -/
abbrev CodecsMap : Type := List Char → Option Codec

/-- `buildParamName` (`src/lib/utils/buildParamName.ts`):
`namespace ? namespace + "." + key : key`; an empty namespace string is falsy
in JS, hence the inner emptiness test. -/
def buildParamName (ns : Option (List Char)) (key : List Char) : List Char :=
  match ns with
  | some n => if n.isEmpty then key else n ++ '.' :: key
  | none => key

/-- JS truthiness of the optional namespace string. -/
def nsTruthy : Option (List Char) → Bool
  | some n => !n.isEmpty
  | none => false

/-! ### A recognizer for the full `JSON.parse` input grammar

`jsonParse` above computes values and therefore covers integer numerals
only (binary floating point is outside the model, see the header).  The
recognizer below covers the *domain* of the real `JSON.parse`, fraction and
exponent numerals included, so a hypothesis `jsonDoc s = false` bounds a
theorem to inputs on which the platform `JSON.parse` certainly throws.  It
deliberately over-approximates acceptance (permissive number bodies, any
character after a backslash inside a string), which only ever shrinks the
set of inputs such a hypothesis admits. -/

/-- A character that may continue a JSON number token: digits, the decimal
point, exponent marks and signs (over-approximation: sequences the real
grammar rejects, such as `1..2`, are also consumed and accepted). -/
def numBodyChar (c : Char) : Bool :=
  isDigitChar c || c = '.' || c = 'e' || c = 'E' || c = '+' || c = '-'

/-- Consume the longest run of number-body characters. -/
def takeNumBody : List Char → List Char
  | [] => []
  | c :: r => if numBodyChar c then takeNumBody r else c :: r

/-- Skip the body of a string literal after its opening quote: a backslash
escapes the next character (over-approximation: any escape and any raw
character is accepted), an unescaped quote closes.  Fueled by the input
length. -/
def skipStr : Nat → List Char → Option (List Char)
  | 0, _ => none
  | _ + 1, [] => none
  | f + 1, c :: r =>
    if c = '"' then some r
    else if c = '\\' then
      match r with
      | [] => none
      | _ :: r2 => skipStr f r2
    else skipStr f r

/-- A keyword's tail followed by the remainder. -/
def kwTail (kw : List Char) (r : List Char) : Option (List Char) :=
  if kw.isPrefixOf r then some (r.drop kw.length) else none

mutual
/-- Skip one JSON value of the real `JSON.parse` grammar, returning the
remainder.  One unit of fuel per grammar recursion; every recursion follows
the consumption of at least one input character, so `3 * length + 8` fuel
(as `jsonDoc` supplies) never runs out on an accepted input. -/
def jsonSkip : Nat → List Char → Option (List Char)
  | 0, _ => none
  | f + 1, s =>
    match dropWs s with
    | [] => none
    | c :: r =>
      if c = '"' then skipStr (r.length + 1) r
      else if c = '[' then
        match dropWs r with
        | ']' :: r2 => some r2
        | _ => jsonSkipItems f r
      else if c = lbrace then
        match dropWs r with
        | d :: r2 => if d = rbrace then some r2 else jsonSkipFields f r
        | [] => none
      else if c = 'n' then kwTail ['u', 'l', 'l'] r
      else if c = 't' then kwTail ['r', 'u', 'e'] r
      else if c = 'f' then kwTail ['a', 'l', 's', 'e'] r
      else if c = '-' then
        match r with
        | d :: r2 => if isDigitChar d then some (takeNumBody r2) else none
        | [] => none
      else if isDigitChar c then some (takeNumBody r)
      else none
/-- Skip the elements of a non-empty array body up to its `]`. -/
def jsonSkipItems : Nat → List Char → Option (List Char)
  | 0, _ => none
  | f + 1, r =>
    match jsonSkip f r with
    | none => none
    | some r2 =>
      match dropWs r2 with
      | ',' :: r3 => jsonSkipItems f r3
      | ']' :: r3 => some r3
      | _ => none
/-- Skip the members of a non-empty object body up to its closing brace. -/
def jsonSkipFields : Nat → List Char → Option (List Char)
  | 0, _ => none
  | f + 1, r =>
    match dropWs r with
    | [] => none
    | c :: r2 =>
      if c = '"' then
        match skipStr (r2.length + 1) r2 with
        | none => none
        | some r3 =>
          match dropWs r3 with
          | ':' :: r4 =>
            match jsonSkip f r4 with
            | none => none
            | some r5 =>
              match dropWs r5 with
              | [] => none
              | d :: r6 =>
                if d = ',' then jsonSkipFields f r6
                else if d = rbrace then some r6
                else none
          | _ => none
      else none
end

/-- Whether the real `JSON.parse` accepts the text (over-approximated): one
value of the full grammar, surrounded by whitespace only. -/
def jsonDoc (s : List Char) : Bool :=
  match jsonSkip (3 * s.length + 8) s with
  | some r => (dropWs r).isEmpty
  | none => false

/-- `defaultUrlSerialize` (`src/lib/utils/defaultUrlSerialize.ts`): strings are
passed through `encodeURIComponent`; any other value is `JSON.stringify`-ed
and then `encodeURIComponent`-ed. -/
def defaultUrlSerialize (v : JVal) : List Char :=
  match v with
  | .str s => encodeURIComponent s
  | _ => encodeURIComponent (jsonStringify v)

/-- `defaultUrlDeserialize`, guarded variant (the repository's current fix,
pinned by its serialization test-suite): `decodeURIComponent` inside
`try/catch`, falling back to the raw text on `URIError`; then `JSON.parse`
inside `try/catch`, falling back to the decoded text.  Total by
construction — this function cannot throw. -/
def defaultUrlDeserialize (raw : List Char) : JVal :=
  let decoded := (decodeUriOpt raw).getD raw
  (jsonParse decoded).getD (.str decoded)

/-- `defaultUrlDeserialize`, unguarded variant
(`src/lib/utils/defaultUrlDeserialize.ts`): `decodeURIComponent` outside any
`try/catch`, so a malformed percent-escape throws (`none`). -/
def defaultUrlDeserializeStrict (raw : List Char) : Option JVal :=
  (decodeUriOpt raw).map (fun decoded => (jsonParse decoded).getD (.str decoded))

/-- `urlSerializeForParams` (`src/lib/utils/urlSerializeForParams.ts`): like
`defaultUrlSerialize` but without `encodeURIComponent`, leaving the encoding
to `URLSearchParams`. -/
def urlSerializeForParams (v : JVal) : List Char :=
  match v with
  | .str s => s
  | _ => jsonStringify v

/-! ### `URLSearchParams` state and the URL writer -/
/-- The decoded (name, value) pair list of a `URLSearchParams` object. -/
abbrev Params : Type := List (List Char × List Char)

/-- `URLSearchParams.get`: value of the first pair with the given name. -/
def paramsGet (ps : Params) (k : List Char) : Option (List Char) :=
  (ps.find? (fun p => p.1 = k)).map (fun p => p.2)

/-- `URLSearchParams.delete`: remove every pair with the given name. -/
def paramsDelete (ps : Params) (k : List Char) : Params :=
  ps.filter (fun p => ¬p.1 = k)

/-- `URLSearchParams.set`: update the first pair with the given name and drop
the rest, else append. -/
def paramsSet : Params → List Char → List Char → Params
  | [], k, v => [(k, v)]
  | (k0, v0) :: tl, k, v =>
    if k0 = k then (k, v) :: paramsDelete tl k else (k0, v0) :: paramsSet tl k v

/-- `key.startsWith(namespace + ".")`. -/
def nsOwns (n : List Char) (k : List Char) : Bool := (n ++ ['.']).isPrefixOf k

/-- The clear fast path of `writeToUrl`: iterate over a snapshot of the keys
and delete every namespace-owned one; net effect, keep the others. -/
def clearNsOwned (n : List Char) (ps : Params) : Params :=
  ps.filter (fun p => !nsOwns n p.1)

/-- One entry of `writeToUrl`'s write loop: `undefined` deletes the namespaced
key; otherwise the field's codec (or `defaultUrlSerialize`) formats the value,
which is `set` on the namespaced key.  A codec `format` throw propagates. -/
def writeEntry (ns : Option (List Char)) (codecs : CodecsMap) (ps : Params)
    (e : List Char × Option JVal) : Option Params :=
  match e.2 with
  | none => some (paramsDelete ps (buildParamName ns e.1))
  | some v =>
    match codecs e.1 with
    | some c => (c.format v).map (fun enc => paramsSet ps (buildParamName ns e.1) enc)
    | none => some (paramsSet ps (buildParamName ns e.1) (defaultUrlSerialize v))

/-- The history commit mode (`replace` or `push`); it selects
`history.replaceState` versus `history.pushState`, which differ only in the
history stack — not in the resulting query string — so the embedded writer
carries it but its result does not depend on it. -/
inductive HistoryMode
  | replace
  | push
  deriving DecidableEq

/-- `writeToUrl`'s `Object.entries(next).forEach` loop: entries are written in
order; a throw propagates and abandons the commit. -/
def writeEntries (ns : Option (List Char)) (codecs : CodecsMap) :
    Params → List (List Char × Option JVal) → Option Params
  | ps, [] => some ps
  | ps, e :: tl =>
    match writeEntry ns codecs ps e with
    | some ps2 => writeEntries ns codecs ps2 tl
    | none => none

/-- `writeToUrl` (`src/lib/useUrlProp.ts`, the variant with the guarded clear
fast path): on an empty `next` with a truthy namespace, delete every
namespace-owned key; otherwise write each entry of `next`.  The result is the
committed `URLSearchParams` state (`none` = a codec `format` threw, in which
case nothing is committed). -/
def writeToUrl (next : List (List Char × Option JVal)) (ns : Option (List Char))
    (codecs : CodecsMap) (hist : HistoryMode) (ps : Params) : Option Params :=
  if next.isEmpty && nsTruthy ns then
    some (clearNsOwned (ns.getD []) ps)
  else
    writeEntries ns codecs ps next

/-- `writeToUrl` (second variant in the repository snapshot): always clears
every namespace-owned key first, then writes each entry of `next`. -/
def writeToUrlV2 (next : List (List Char × Option JVal)) (ns : Option (List Char))
    (codecs : CodecsMap) (hist : HistoryMode) (ps : Params) : Option Params :=
  writeEntries ns codecs
    (if nsTruthy ns then clearNsOwned (ns.getD []) ps else ps) next

/-! ### The URL reader -/
/-- Key ownership in `parseFromUrl`: with a truthy namespace, a key
participates only when it starts with `namespace + "."`, and the field is the
remainder; otherwise the key itself is the field.  An empty field name is
falsy and is skipped (`if (!key) continue`). -/
def stripNs (ns : Option (List Char)) (k : List Char) : Option (List Char) :=
  let key : Option (List Char) :=
    if nsTruthy ns then
      if nsOwns (ns.getD []) k then some (k.drop ((ns.getD []).length + 1)) else none
    else some k
  match key with
  | some s => if s.isEmpty then none else some s
  | none => none

/-- JS object assignment `out[key] = v`: replace in place or append. -/
def objUpsert {α : Type} : List (List Char × α) → List Char → α → List (List Char × α)
  | [], k, a => [(k, a)]
  | (k0, a0) :: tl, k, a =>
    if k0 = k then (k, a) :: tl else (k0, a0) :: objUpsert tl k a

/-- JS `delete obj[key]`. -/
def objDelete {α : Type} (m : List (List Char × α)) (k : List Char) : List (List Char × α) :=
  m.filter (fun e => ¬e.1 = k)

/-- JS property read `obj[key]` (`undefined` = `none`). -/
def objGet {α : Type} (m : List (List Char × α)) (k : List Char) : Option α :=
  (m.find? (fun e => e.1 = k)).map (fun e => e.2)

/-- `parseFromUrl` (`src/lib/utils/parseFromUrl.ts`): for each query pair, a
namespace-owned field is parsed with its codec inside `try/catch` — a parse
throw drops that single field — or, when no codec is given, with the
`defaultUrlDeserialize` the module imports: the strict
`src/lib/utils/defaultUrlDeserialize.ts`, whose `decodeURIComponent` sits
outside any `try/catch`, so a `URIError` on the codec-less path propagates
out of `parseFromUrl` (`none`).  In a non-browser context the source returns
an empty partial before reading any pair; the embedding takes the readable
pair list as input.  `parseStep` is the body of the `for` loop. -/
def parseStep (ns : Option (List Char)) (codecs : CodecsMap)
    (out : List (List Char × JVal)) (e : List Char × List Char) :
    Option (List (List Char × JVal)) :=
  match stripNs ns e.1 with
  | none => some out
  | some key =>
    match codecs key with
    | some c =>
      match c.parse e.2 with
      | some x => some (objUpsert out key x)
      | none => some out
    | none =>
      match defaultUrlDeserializeStrict e.2 with
      | some x => some (objUpsert out key x)
      | none => none

/-- The `for (const [k, v] of entries)` loop of `parseFromUrl`; a throw from
a step abandons the whole read. -/
def parseEntries (ns : Option (List Char)) (codecs : CodecsMap) :
    List (List Char × JVal) → Params → Option (List (List Char × JVal))
  | out, [] => some out
  | out, e :: tl =>
    match parseStep ns codecs out e with
    | some out2 => parseEntries ns codecs out2 tl
    | none => none

/-- `parseFromUrl` itself: run the loop on an empty accumulator. -/
def parseFromUrl (ns : Option (List Char)) (codecs : CodecsMap) (ps : Params) :
    Option (List (List Char × JVal)) :=
  parseEntries ns codecs [] ps

/-! ### The hook layer (`src/lib/useUrlState.ts`) -/
/-- The `source` tag handed to `onChange`. -/
inductive ChangeSource
  | set
  | patch
  | external
  deriving DecidableEq

/-- The hook's in-memory state: field name to runtime value. -/
abbrev StateMap : Type := List (List Char × JVal)

/-- A partial update: `some` sets a field, `none` (JS `undefined`) removes it. -/
abbrev PartialState : Type := List (List Char × Option JVal)

/-- The hook's configuration: namespace, codecs, optional `sanitize`, history
mode.  `sanitize` runs on every outgoing payload inside `flushWrite`. -/
structure UrlConfig where
  ns : Option (List Char)
  codecs : CodecsMap
  sanitize : Option (PartialState → PartialState)
  history : HistoryMode

/-- Apply the configured `sanitize`, or the identity when absent. -/
def applySanitize (cfg : UrlConfig) (p : PartialState) : PartialState :=
  match cfg.sanitize with
  | some f => f p
  | none => p

/-- Apply a partial update to a state snapshot: `some v` assigns, `none`
deletes (`flushWrite`'s `effectiveNext` loop). -/
def applyPartial : StateMap → PartialState → StateMap
  | snap, [] => snap
  | snap, e :: tl =>
    applyPartial
      (match e.2 with
       | some v => objUpsert snap e.1 v
       | none => objDelete snap e.1) tl

/-- `flushWrite`: sanitize the payload, commit it with `writeToUrl`, then
compute `effectiveNext` from the pre-mutation snapshot and emit it to
`onChange` with the change source.  `none` = `writeToUrl` threw, so neither
the URL nor `onChange` fires. -/
def flushWrite (cfg : UrlConfig) (prev : StateMap) (upd : PartialState)
    (src : ChangeSource) (ps : Params) :
    Option (Params × (StateMap × ChangeSource)) :=
  let payload := applySanitize cfg upd
  (writeToUrl payload cfg.ns cfg.codecs cfg.history ps).map
    (fun ps2 => (ps2, (applyPartial prev payload, src)))

/-- The observable outcome of one synchronous api mutation: the state the
hook holds afterwards, the committed query params, the `onChange` emissions,
and whether an exception escaped to the caller. -/
structure MutOutcome where
  state : StateMap
  params : Params
  events : List (StateMap × ChangeSource)
  threw : Bool

/-- One api mutation under a zero-delay debounce (the default): the updater
calls `scheduleWrite` — which flushes synchronously — *before* returning the
next snapshot, so when the flush throws the exception aborts the functional
updater and the hook keeps its previous snapshot. -/
def runMutation (cfg : UrlConfig) (snap : StateMap) (ps : Params)
    (next : StateMap) (upd : PartialState) (src : ChangeSource) : MutOutcome :=
  match flushWrite cfg snap upd src ps with
  | some r => ⟨next, r.1, [r.2], false⟩
  | none => ⟨snap, ps, [], true⟩

/-- `api.set(key, value)`: copy the snapshot, assign (or delete on
`undefined`), schedule `{ [key]: value }` with source `"patch"`. -/
def apiSet (cfg : UrlConfig) (snap : StateMap) (ps : Params)
    (k : List Char) (v : Option JVal) : MutOutcome :=
  runMutation cfg snap ps
    (match v with
     | some x => objUpsert snap k x
     | none => objDelete snap k)
    [(k, v)] .patch

/-- `api.patch(partial)`: merge the partial into the snapshot, schedule the
partial with source `"patch"`. -/
def apiPatch (cfg : UrlConfig) (snap : StateMap) (ps : Params)
    (upd : PartialState) : MutOutcome :=
  runMutation cfg snap ps (applyPartial snap upd) upd .patch

/-- `api.remove(keys)`: delete each key from the snapshot, schedule every key
mapped to `undefined` with source `"patch"`. -/
def apiRemove (cfg : UrlConfig) (snap : StateMap) (ps : Params)
    (ks : List (List Char)) : MutOutcome :=
  runMutation cfg snap ps (ks.foldl objDelete snap)
    (ks.map (fun k => (k, (none : Option JVal)))) .patch

/-- `api.clear()`: schedule the empty payload with source `"patch"` and
return the empty snapshot. -/
def apiClear (cfg : UrlConfig) (snap : StateMap) (ps : Params) : MutOutcome :=
  runMutation cfg snap ps [] [] .patch

/-- The keys of `next` bound to a defined value, in order (`setState`'s
`toPersist` loop). -/
def definedEntries (next : PartialState) : PartialState :=
  next.filter (fun e => e.2.isSome)

/-- `next` restricted to its defined bindings, as a state snapshot. -/
def definedState (next : PartialState) : StateMap :=
  next.filterMap (fun e => e.2.map (fun v => (e.1, v)))

/-- `api.setState(next)`: replace the snapshot with the defined bindings of
`next` and schedule exactly those bindings with source `"set"`. -/
def apiSetState (cfg : UrlConfig) (snap : StateMap) (ps : Params)
    (next : PartialState) : MutOutcome :=
  runMutation cfg snap ps (definedState next) (definedEntries next) .set

/-- An object read as a partial: every present field is a defined binding. -/
def toPartial (m : StateMap) : PartialState := m.map (fun e => (e.1, some e.2))

/-- The `popstate` listener: when `syncOnPopState` is enabled, re-parse the
URL, sanitize the parsed partial, merge it over the current snapshot, emit
the merged state with source `"external"`; the URL itself is not rewritten.
A throw out of `parseFromUrl` (the strict decoder on a malformed codec-less
value) escapes the handler before `setState`, so the snapshot keeps its
value and no `onChange` fires.  When sync is disabled, nothing happens. -/
def popstateStep (syncOnPopState : Bool) (cfg : UrlConfig) (snap : StateMap)
    (ps : Params) : MutOutcome :=
  if syncOnPopState then
    match parseFromUrl cfg.ns cfg.codecs ps with
    | none => ⟨snap, ps, [], true⟩
    | some parsed =>
      let nextState := applyPartial snap (applySanitize cfg (toPartial parsed))
      ⟨nextState, ps, [(nextState, .external)], false⟩
  else ⟨snap, ps, [], false⟩

/-! ### The debounce machine (`scheduleWrite` with a positive delay) -/
/-- The two mutable refs of `scheduleWrite`: the single pending merged
payload (with the source of the *last* contributing call) and whether a
timer is armed. -/
structure DebounceState where
  pending : Option (PartialState × ChangeSource)
  armed : Bool

/-- Merging a new partial over the pending one: later bindings win per key
(`pendingWriteRef.current = \x7b ...prev, ...partial \x7d`). -/
def partialMerge : PartialState → PartialState → PartialState
  | a, [] => a
  | a, e :: tl => partialMerge (objUpsert a e.1 e.2) tl

/-- Events driving the debounce machine: an api mutation scheduling a
payload, or the single armed timer firing. -/
inductive DebounceEvent
  | mutate (upd : PartialState) (src : ChangeSource)
  | fire

/-- One debounce transition.  `scheduleWrite` merges into the pending payload,
clears any armed timer, and arms a fresh one; the timer firing hands the
pending payload to `flushWrite` exactly once and disarms. -/
def debounceStep (s : DebounceState) :
    DebounceEvent → DebounceState × List (PartialState × ChangeSource)
  | .mutate upd src =>
    (⟨some (match s.pending with
            | some q => (partialMerge q.1 upd, src)
            | none => (upd, src)), true⟩, [])
  | .fire =>
    if s.armed then
      (⟨none, false⟩,
       match s.pending with
       | some q => [q]
       | none => [])
    else (s, [])

/-- Run the debounce machine over an event trace, collecting every payload
handed to `flushWrite` in order. -/
def debounceRun : DebounceState → List DebounceEvent →
    DebounceState × List (PartialState × ChangeSource)
  | s, [] => (s, [])
  | s, e :: tl =>
    let r := debounceStep s e
    let rest := debounceRun r.1 tl
    (rest.1, r.2 ++ rest.2)

/-- A JS object never binds the same key twice; lists that model objects
built by the library satisfy this. -/
def noDupKeys {α : Type} : List (List Char × α) → Bool
  | [] => true
  | e :: tl => !(objGet tl e.1).isSome && noDupKeys tl

/-! ### The merged pending payload and the debounce machine -/
/-- The latest binding of a field in a partial, scanning left to right with
later entries winning (object-spread semantics). -/
def lastVal : PartialState → List Char → Option (Option JVal)
  | [], _ => none
  | e :: tl, k =>
    match lastVal tl k with
    | some v => some v
    | none => if e.1 = k then some e.2 else none

/-- The pending-payload fold of a mutation list: what `pendingWriteRef`
holds after each `scheduleWrite` call merged its partial in. -/
def stepPending : Option (PartialState × ChangeSource) →
    List (PartialState × ChangeSource) → Option (PartialState × ChangeSource)
  | p, [] => p
  | p, m :: tl =>
    stepPending (some (match p with
      | some q => (partialMerge q.1 m.1, m.2)
      | none => (m.1, m.2))) tl

/-- The pending payload accumulated from a clean state. -/
def pendingAfter (ms : List (PartialState × ChangeSource)) :
    Option (PartialState × ChangeSource) :=
  stepPending none ms

/-- The latest value a mutation list binds to a field, across all partials. -/
def lastBound (ms : List (PartialState × ChangeSource)) (k : List Char) :
    Option (Option JVal) :=
  lastVal (ms.flatMap (fun m => m.1)) k

/-! ### Concrete configurations used to instantiate the claims -/
/-- The empty `codecs` option. -/
def noCodecs : CodecsMap := fun _ => none

/-- A codec whose `parse` and `format` always throw. -/
def cThrow : Codec := ⟨fun _ => none, fun _ => none⟩

/-- Namespace `"users"`, no codecs, no sanitize, replace history. -/
def cfgUsers : UrlConfig := ⟨some ("users".toList), noCodecs, none, .replace⟩

/-- No namespace, a throwing codec on field `"n"`. -/
def cfgThrow : UrlConfig :=
  ⟨none, fun k => if k = "n".toList then some cThrow else none, none, .replace⟩

/-- No namespace, no codecs, no sanitize. -/
def cfgPlain : UrlConfig := ⟨none, noCodecs, none, .replace⟩

/-- Namespace `"ns"`, no codecs, no sanitize. -/
def cfgNsQ : UrlConfig := ⟨some ("ns".toList), noCodecs, none, .replace⟩

/-- A throwing codec on field `"page"` only. -/
def pageCodecs : CodecsMap := fun k => if k = "page".toList then some cThrow else none

/-- The string payload of a value, when it is a string. -/
def strPayload : JVal → Option (List Char)
  | .str s => some s
  | _ => none

/-- The mutation trace used to instantiate the debounce claim: three `set`
calls inside one window, field `a` set to 1, then 2 (with `b` 3), then 4. -/
def msW : List (PartialState × ChangeSource) :=
  [([("a".toList, some (JVal.num 1))], .patch),
   ([("a".toList, some (JVal.num 2)), ("b".toList, some (JVal.num 3))], .patch),
   ([("a".toList, some (JVal.num 4))], .patch)]

/-! ## Theorems -/

theorem hexDigitVal_hexCharUC (k : Nat) (hk : k < 16) :
    hexDigitVal (hexCharUC k) = some k := by
  interval_cases k <;> decide

theorem hexDigitVal_hexCharLC (k : Nat) (hk : k < 16) :
    hexDigitVal (hexCharLC k) = some k := by
  interval_cases k <;> decide

theorem hexPairVal_split (b : Nat) (hb : b < 256) :
    hexPairVal (hexCharUC (b / 16)) (hexCharUC (b % 16)) = some b := by
  rw [hexPairVal, hexDigitVal_hexCharUC _ (by omega), hexDigitVal_hexCharUC _ (by omega)]
  simp only [Option.some.injEq]
  omega

example : decodeUriOpt ("john%40example.com".toList) = some ("john@example.com".toList) := by
  decide

example : decodeUriOpt ("user%2".toList) = none := by decide

example : encodeURIComponent ("john@example.com".toList) = "john%40example.com".toList := by
  decide

theorem takeCont_pctEscape (b : Nat) (hb1 : 0x80 ≤ b) (hb2 : b < 0xC0) (r : List Char) :
    takeCont (pctEscape b ++ r) = some (b, r) := by
  simp only [pctEscape, List.cons_append, List.nil_append]
  simp only [takeCont]
  rw [hexPairVal_split b (by omega)]
  simp only [Option.some_bind]
  rw [if_pos (by simp only [contByte, Bool.and_eq_true, decide_eq_true_eq]; omega)]

/-- One-step unfolding of `uriStep` on an escape group head (definitional). -/
theorem uriStep_pct (h1 h2 : Char) (r2 : List Char) :
    uriStep ('%' :: h1 :: h2 :: r2) =
      ((hexPairVal h1 h2).bind fun b0 =>
        if b0 < 0x80 then some (Char.ofNat b0, r2)
        else if b0 < 0xC2 then none
        else if b0 < 0xE0 then
          (takeCont r2).bind fun p1 =>
            some (Char.ofNat ((b0 - 0xC0) * 0x40 + (p1.1 - 0x80)), p1.2)
        else if b0 < 0xF0 then
          (takeCont r2).bind fun p1 => (takeCont p1.2).bind fun p2 =>
            let n := (b0 - 0xE0) * 0x1000 + (p1.1 - 0x80) * 0x40 + (p2.1 - 0x80)
            if 0x800 ≤ n ∧ (n < 0xD800 ∨ 0xDFFF < n) then some (Char.ofNat n, p2.2)
            else none
        else if b0 < 0xF5 then
          (takeCont r2).bind fun p1 => (takeCont p1.2).bind fun p2 =>
            (takeCont p2.2).bind fun p3 =>
              let n := (b0 - 0xF0) * 0x40000 + (p1.1 - 0x80) * 0x1000 +
                (p2.1 - 0x80) * 0x40 + (p3.1 - 0x80)
              if 0x10000 ≤ n ∧ n < 0x110000 then some (Char.ofNat n, p3.2)
              else none
        else none) := rfl

theorem uriStep_plain (c : Char) (hc : ¬c = '%') (rest : List Char) :
    uriStep (c :: rest) = some (c, rest) := by
  match rest with
  | [] => simp [uriStep, hc]
  | [x] => simp [uriStep, hc]
  | x :: y :: r => simp [uriStep, hc]

/-- Character validity transported to `toNat`: a `Char` is a Unicode scalar value. -/
theorem char_toNat_valid (c : Char) :
    c.toNat < 0x110000 ∧ (c.toNat < 0xD800 ∨ 0xDFFF < c.toNat) := by
  have h := c.valid
  rcases h with h | h
  · refine ⟨?_, Or.inl ?_⟩ <;> (simp only [Char.toNat]; omega)
  · refine ⟨?_, Or.inr ?_⟩ <;> (simp only [Char.toNat]; omega)

/-- Decoding one step of the `encodeURIComponent` rendering of a character
recovers exactly that character. -/
theorem uriStep_uriEncodeChar (c : Char) (rest : List Char) :
    uriStep (uriEncodeChar c ++ rest) = some (c, rest) := by
  rw [uriEncodeChar]
  by_cases hu : uriUnreserved c
  · rw [if_pos hu]
    have hc : ¬c = '%' := by
      intro h
      rw [h] at hu
      exact absurd hu (by decide)
    simp only [List.cons_append, List.nil_append]
    exact uriStep_plain c hc rest
  · rw [if_neg hu]
    obtain ⟨hlt, hs⟩ := char_toNat_valid c
    rw [charBytes]
    by_cases h1 : c.toNat < 0x80
    · rw [utf8Bytes, if_pos h1]
      simp only [List.flatMap_cons, List.flatMap_nil, List.append_nil, pctEscape,
        List.cons_append, List.nil_append]
      rw [uriStep_pct, hexPairVal_split c.toNat (by omega)]
      simp only [Option.some_bind]
      rw [if_pos h1, Char.ofNat_toNat]
    · by_cases h2 : c.toNat < 0x800
      · rw [utf8Bytes, if_neg h1, if_pos h2]
        simp only [List.flatMap_cons, List.flatMap_nil, List.append_nil, List.append_assoc]
        rw [show pctEscape (0xC0 + c.toNat / 0x40) ++ (pctEscape (0x80 + c.toNat % 0x40) ++ rest)
            = '%' :: hexCharUC ((0xC0 + c.toNat / 0x40) / 16) ::
              hexCharUC ((0xC0 + c.toNat / 0x40) % 16) ::
              (pctEscape (0x80 + c.toNat % 0x40) ++ rest) from rfl]
        rw [uriStep_pct, hexPairVal_split (0xC0 + c.toNat / 0x40) (by omega)]
        simp only [Option.some_bind]
        rw [if_neg (by omega), if_neg (by omega), if_pos (by omega)]
        rw [takeCont_pctEscape (0x80 + c.toNat % 0x40) (by omega) (by omega) rest]
        simp only [Option.some_bind, Option.some.injEq, Prod.mk.injEq]
        refine ⟨?_, trivial⟩
        rw [show (0xC0 + c.toNat / 0x40 - 0xC0) * 0x40 + (0x80 + c.toNat % 0x40 - 0x80)
            = c.toNat from by omega, Char.ofNat_toNat]
      · by_cases h3 : c.toNat < 0x10000
        · rw [utf8Bytes, if_neg h1, if_neg h2, if_pos h3]
          simp only [List.flatMap_cons, List.flatMap_nil, List.append_nil, List.append_assoc]
          rw [show pctEscape (0xE0 + c.toNat / 0x1000) ++
                (pctEscape (0x80 + c.toNat / 0x40 % 0x40) ++
                  (pctEscape (0x80 + c.toNat % 0x40) ++ rest))
              = '%' :: hexCharUC ((0xE0 + c.toNat / 0x1000) / 16) ::
                hexCharUC ((0xE0 + c.toNat / 0x1000) % 16) ::
                (pctEscape (0x80 + c.toNat / 0x40 % 0x40) ++
                  (pctEscape (0x80 + c.toNat % 0x40) ++ rest)) from rfl]
          rw [uriStep_pct, hexPairVal_split (0xE0 + c.toNat / 0x1000) (by omega)]
          simp only [Option.some_bind]
          rw [if_neg (by omega), if_neg (by omega), if_neg (by omega), if_pos (by omega)]
          rw [takeCont_pctEscape (0x80 + c.toNat / 0x40 % 0x40) (by omega) (by omega)]
          simp only [Option.some_bind]
          rw [takeCont_pctEscape (0x80 + c.toNat % 0x40) (by omega) (by omega) rest]
          simp only [Option.some_bind]
          rw [if_pos (by constructor <;> omega)]
          simp only [Option.some.injEq, Prod.mk.injEq]
          refine ⟨?_, trivial⟩
          rw [show (0xE0 + c.toNat / 0x1000 - 0xE0) * 0x1000 +
              (0x80 + c.toNat / 0x40 % 0x40 - 0x80) * 0x40 + (0x80 + c.toNat % 0x40 - 0x80)
              = c.toNat from by omega, Char.ofNat_toNat]
        · rw [utf8Bytes, if_neg h1, if_neg h2, if_neg h3]
          simp only [List.flatMap_cons, List.flatMap_nil, List.append_nil, List.append_assoc]
          rw [show pctEscape (0xF0 + c.toNat / 0x40000) ++
                (pctEscape (0x80 + c.toNat / 0x1000 % 0x40) ++
                  (pctEscape (0x80 + c.toNat / 0x40 % 0x40) ++
                    (pctEscape (0x80 + c.toNat % 0x40) ++ rest)))
              = '%' :: hexCharUC ((0xF0 + c.toNat / 0x40000) / 16) ::
                hexCharUC ((0xF0 + c.toNat / 0x40000) % 16) ::
                (pctEscape (0x80 + c.toNat / 0x1000 % 0x40) ++
                  (pctEscape (0x80 + c.toNat / 0x40 % 0x40) ++
                    (pctEscape (0x80 + c.toNat % 0x40) ++ rest))) from rfl]
          rw [uriStep_pct, hexPairVal_split (0xF0 + c.toNat / 0x40000) (by omega)]
          simp only [Option.some_bind]
          rw [if_neg (by omega), if_neg (by omega), if_neg (by omega), if_neg (by omega),
            if_pos (by omega)]
          rw [takeCont_pctEscape (0x80 + c.toNat / 0x1000 % 0x40) (by omega) (by omega)]
          simp only [Option.some_bind]
          rw [takeCont_pctEscape (0x80 + c.toNat / 0x40 % 0x40) (by omega) (by omega)]
          simp only [Option.some_bind]
          rw [takeCont_pctEscape (0x80 + c.toNat % 0x40) (by omega) (by omega) rest]
          simp only [Option.some_bind]
          rw [if_pos (by constructor <;> omega)]
          simp only [Option.some.injEq, Prod.mk.injEq]
          refine ⟨?_, trivial⟩
          rw [show (0xF0 + c.toNat / 0x40000 - 0xF0) * 0x40000 +
              (0x80 + c.toNat / 0x1000 % 0x40 - 0x80) * 0x1000 +
              (0x80 + c.toNat / 0x40 % 0x40 - 0x80) * 0x40 + (0x80 + c.toNat % 0x40 - 0x80)
              = c.toNat from by omega, Char.ofNat_toNat]

theorem uriEncodeChar_ne_nil (c : Char) : uriEncodeChar c ≠ [] := by
  rw [uriEncodeChar]
  by_cases hu : uriUnreserved c
  · simp [hu]
  · rw [if_neg hu, charBytes, utf8Bytes]
    by_cases h1 : c.toNat < 0x80
    · simp [h1, pctEscape]
    · by_cases h2 : c.toNat < 0x800
      · simp [h1, h2, pctEscape]
      · by_cases h3 : c.toNat < 0x10000
        · simp [h1, h2, h3, pctEscape]
        · simp [h1, h2, h3, pctEscape]

theorem encodeURIComponent_length_ge (s : List Char) :
    s.length ≤ (encodeURIComponent s).length := by
  induction s with
  | nil => simp [encodeURIComponent]
  | cons c cs ih =>
    rw [encodeURIComponent, List.flatMap_cons, List.length_append]
    have h1 : 1 ≤ (uriEncodeChar c).length := by
      cases h : uriEncodeChar c with
      | nil => exact absurd h (uriEncodeChar_ne_nil c)
      | cons x xs => simp
    rw [show cs.flatMap uriEncodeChar = encodeURIComponent cs from rfl]
    simp only [List.length_cons]
    omega

theorem decodeUriGo_encode (s : List Char) :
    ∀ f, s.length ≤ f → decodeUriGo f (encodeURIComponent s) = some s := by
  induction s with
  | nil => intro f _; rw [encodeURIComponent, List.flatMap_nil]; cases f <;> rfl
  | cons c cs ih =>
    intro f hf
    rw [encodeURIComponent, List.flatMap_cons]
    cases f with
    | zero => simp at hf
    | succ g =>
      have hne : uriEncodeChar c ++ cs.flatMap uriEncodeChar ≠ [] := by
        intro h
        exact uriEncodeChar_ne_nil c (List.append_eq_nil.mp h).1
      cases hh : uriEncodeChar c ++ cs.flatMap uriEncodeChar with
      | nil => exact absurd hh hne
      | cons x xs =>
        rw [decodeUriGo, ← hh]
        rw [show cs.flatMap uriEncodeChar = encodeURIComponent cs from rfl,
          uriStep_uriEncodeChar c (encodeURIComponent cs)]
        show (decodeUriGo g (encodeURIComponent cs)).map (fun t => c :: t) = some (c :: cs)
        rw [ih g (by simp at hf; omega)]
        rfl

/-- The percent-coding round-trip: decoding inverts `encodeURIComponent`. -/
theorem decodeUri_encodeUri (s : List Char) :
    decodeUriOpt (encodeURIComponent s) = some s := by
  rw [decodeUriOpt]
  exact decodeUriGo_encode s _ (encodeURIComponent_length_ge s)

example : serializeParams [("filter.email".toList, "john%40example.com".toList)] =
    "filter.email=john%2540example.com".toList := by decide

example : jsonStringify (.arr (.cons (.num 1) (.cons (.str "a".toList) .nil))) =
    "[1,\"a\"]".toList := by decide

example : jsonParse ("true".toList) = some (.bool true) := by decide

example : jsonParse ("user%2".toList) = none := by decide

example : jsonParse ("[1,\"a\"]".toList) =
    some (.arr (.cons (.num 1) (.cons (.str "a".toList) .nil))) := by decide

example : jsonParse ("  -42 ".toList) = some (.num (-42)) := by decide

example : jsonParse ("1.5".toList) = none := by decide

example : jsonParse ("01".toList) = none := by decide

/-! ### Number codec lemmas -/
theorem digitChar_toNat (k : Nat) (h : k < 10) : (digitChar k).toNat = 48 + k := by
  interval_cases k <;> decide

theorem isDigitChar_digitChar (k : Nat) (h : k < 10) : isDigitChar (digitChar k) = true := by
  interval_cases k <;> decide

theorem natDigitsGo_fuel (n : Nat) : ∀ f, n < f → natDigitsGo f n = natChars n := by
  induction n using Nat.strong_induction_on with
  | _ n ih =>
    intro f hf
    match f with
    | g + 1 =>
      by_cases h10 : n < 10
      · rw [natDigitsGo, if_pos h10, natChars, natDigitsGo, if_pos h10]
      · rw [natDigitsGo, if_neg h10, natChars, natDigitsGo, if_neg h10]
        rw [ih (n / 10) (by omega) g (by omega), ih (n / 10) (by omega) n (by omega)]

theorem natChars_lt10 (n : Nat) (h : n < 10) : natChars n = [digitChar n] := by
  rw [natChars, natDigitsGo, if_pos h]

theorem natChars_ge10 (n : Nat) (h : 10 ≤ n) :
    natChars n = natChars (n / 10) ++ [digitChar (n % 10)] := by
  rw [natChars, natDigitsGo, if_neg (by omega), natDigitsGo_fuel (n / 10) n (by omega)]

theorem natChars_ne_nil (n : Nat) : natChars n ≠ [] := by
  by_cases h : n < 10
  · rw [natChars_lt10 n h]; simp
  · rw [natChars_ge10 n (by omega)]; simp

theorem natChars_digits (n : Nat) : ∀ c ∈ natChars n, isDigitChar c = true := by
  induction n using Nat.strong_induction_on with
  | _ n ih =>
    by_cases h : n < 10
    · rw [natChars_lt10 n h]
      intro c hc
      rw [List.mem_singleton] at hc
      rw [hc]
      exact isDigitChar_digitChar n h
    · rw [natChars_ge10 n (by omega)]
      intro c hc
      rw [List.mem_append] at hc
      rcases hc with hc | hc
      · exact ih (n / 10) (by omega) c hc
      · rw [List.mem_singleton] at hc
        rw [hc]
        exact isDigitChar_digitChar (n % 10) (by omega)

theorem natChars_head_ne_zero (n : Nat) (hn : 1 ≤ n) :
    ∀ d ds, natChars n = d :: ds → ¬d = '0' := by
  induction n using Nat.strong_induction_on with
  | _ n ih =>
    intro d ds hds
    by_cases h : n < 10
    · rw [natChars_lt10 n h] at hds
      cases hds
      interval_cases n <;> decide
    · rw [natChars_ge10 n (by omega)] at hds
      cases hh : natChars (n / 10) with
      | nil => exact absurd hh (natChars_ne_nil _)
      | cons d0 ds0 =>
        rw [hh] at hds
        simp only [List.cons_append, List.cons.injEq] at hds
        rw [← hds.1]
        exact ih (n / 10) (by omega) (by omega) d0 ds0 hh

theorem digitRun_stop (rest : List Char) (h : numStop rest = true) :
    digitRun rest = ([], rest) := by
  cases rest with
  | nil => rfl
  | cons c t =>
    simp only [numStop, Bool.not_eq_eq_eq_not, Bool.not_true, Bool.or_eq_false_iff,
      decide_eq_false_iff_not] at h
    rw [digitRun, if_neg (by simp [h.1.1.1])]

theorem digitRun_run (ds : List Char) (hds : ∀ c ∈ ds, isDigitChar c = true)
    (rest : List Char) (hrest : digitRun rest = ([], rest)) :
    digitRun (ds ++ rest) = (ds, rest) := by
  induction ds with
  | nil => simpa using hrest
  | cons c t ih =>
    have hc : isDigitChar c = true := hds c (by simp)
    have ht := ih (fun x hx => hds x (by simp [hx]))
    simp only [List.cons_append]
    rw [digitRun, if_pos hc, ht]

theorem floatFollow_of_numStop (rest : List Char) (h : numStop rest = true) :
    floatFollow rest = false := by
  cases rest with
  | nil => rfl
  | cons c t =>
    simp only [numStop, Bool.not_eq_eq_eq_not, Bool.not_true, Bool.or_eq_false_iff,
      decide_eq_false_iff_not] at h
    simp [floatFollow, h.1.1.2, h.1.2, h.2]

theorem digitsVal_append_digit (xs : List Char) (c : Char) :
    digitsVal (xs ++ [c]) = 10 * digitsVal xs + (c.toNat - 48) := by
  simp [digitsVal, List.foldl_append]

theorem digitsVal_natChars (n : Nat) : digitsVal (natChars n) = n := by
  induction n using Nat.strong_induction_on with
  | _ n ih =>
    by_cases h : n < 10
    · rw [natChars_lt10 n h]
      show digitsVal ([] ++ [digitChar n]) = n
      rw [digitsVal_append_digit, digitChar_toNat n h]
      simp [digitsVal]
    · rw [natChars_ge10 n (by omega), digitsVal_append_digit, ih (n / 10) (by omega),
        digitChar_toNat (n % 10) (by omega)]
      omega

theorem leadingZero_false (d : Char) (ds : List Char) (h : ¬(d = '0' ∧ ds ≠ [])) :
    leadingZero (d :: ds) = false := by
  cases ds with
  | nil => simp [leadingZero]
  | cons e es =>
    have hd : ¬d = '0' := by
      intro hc
      exact h ⟨hc, by simp⟩
    simp [leadingZero, hd]

theorem parseNatTok_natChars (n : Nat) (rest : List Char) (h : numStop rest = true) :
    parseNatTok (natChars n ++ rest) = some (n, rest) := by
  have hrun := digitRun_run (natChars n) (natChars_digits n) rest (digitRun_stop rest h)
  have hlz : leadingZero (natChars n) = false := by
    cases hh : natChars n with
    | nil => exact absurd hh (natChars_ne_nil n)
    | cons d ds =>
      refine leadingZero_false d ds ?_
      by_cases hn : 1 ≤ n
      · intro hcon
        exact natChars_head_ne_zero n hn d ds hh hcon.1
      · have hn0 : n = 0 := by omega
        rw [hn0, natChars_lt10 0 (by omega)] at hh
        cases hh
        simp
  rw [parseNatTok, hrun]
  simp only [List.isEmpty_iff]
  rw [if_neg (natChars_ne_nil n), if_neg (by simp [hlz]),
    if_neg (by simp [floatFollow_of_numStop rest h]), digitsVal_natChars]

theorem isDigitChar_facts (c : Char) (h : isDigitChar c = true) :
    ¬c = 'n' ∧ ¬c = 't' ∧ ¬c = 'f' ∧ ¬c = '"' ∧ ¬c = '[' ∧ ¬c = lbrace ∧ ¬c = '-' ∧
      jsonWsChar c = false ∧ ¬c = ',' ∧ ¬c = ']' ∧ ¬c = rbrace ∧ ¬c = '%' := by
  simp only [isDigitChar, Bool.and_eq_true, decide_eq_true_eq] at h
  refine ⟨?_, ?_, ?_, ?_, ?_, ?_, ?_, ?_, ?_, ?_, ?_, ?_⟩ <;>
    first
      | (intro hc; rw [hc] at h; revert h; decide)
      | (simp only [jsonWsChar]
         have h1 : ¬c = ' ' := by intro hc; rw [hc] at h; revert h; decide
         have h2 : ¬c.toNat = 9 := by omega
         have h3 : ¬c.toNat = 10 := by omega
         have h4 : ¬c.toNat = 13 := by omega
         simp [h1, h2, h3, h4])

theorem parseIntTok_intChars (i : Int) (rest : List Char) (h : numStop rest = true) :
    parseIntTok (intChars i ++ rest) = some (i, rest) := by
  rw [intChars]
  by_cases hi : i < 0
  · rw [if_pos hi]
    simp only [List.cons_append]
    rw [parseIntTok, if_pos rfl, parseNatTok_natChars i.natAbs rest h]
    show some (-((i.natAbs : Nat) : Int), rest) = some (i, rest)
    rw [show -((i.natAbs : Nat) : Int) = i from by omega]
  · rw [if_neg hi]
    cases hh : natChars i.natAbs with
    | nil => exact absurd hh (natChars_ne_nil _)
    | cons d ds =>
      have hd : isDigitChar d = true := natChars_digits i.natAbs d (by rw [hh]; simp)
      simp only [List.cons_append]
      rw [parseIntTok]
      rw [if_neg (isDigitChar_facts d hd).2.2.2.2.2.2.1]
      rw [← List.cons_append]
      rw [← hh]
      rw [parseNatTok_natChars i.natAbs rest h]
      show some (((i.natAbs : Nat) : Int), rest) = some (i, rest)
      rw [show ((i.natAbs : Nat) : Int) = i from by omega]

/-! ### String codec lemmas -/
theorem hex4Val_control (n : Nat) (h : n < 32) :
    hex4Val '0' '0' (hexCharLC (n / 16)) (hexCharLC (n % 16)) = some n := by
  rw [hex4Val, show hexDigitVal '0' = some 0 from by decide,
    hexDigitVal_hexCharLC (n / 16) (by omega), hexDigitVal_hexCharLC (n % 16) (by omega)]
  simp only [Option.some_bind, Option.some.injEq]
  omega

theorem strStep_escape (c : Char) (rest : List Char) :
    strStep (escapeJsonChar c ++ rest) = some (c, rest) := by
  rw [escapeJsonChar]
  by_cases h1 : c = '"'
  · rw [if_pos h1, h1]
    rfl
  rw [if_neg h1]
  by_cases h2 : c = '\\'
  · rw [if_pos h2, h2]
    rfl
  rw [if_neg h2]
  by_cases h3 : c.toNat = 8
  · rw [if_pos h3, show c = Char.ofNat 8 from by rw [← h3, Char.ofNat_toNat]]
    rfl
  rw [if_neg h3]
  by_cases h4 : c.toNat = 9
  · rw [if_pos h4, show c = Char.ofNat 9 from by rw [← h4, Char.ofNat_toNat]]
    rfl
  rw [if_neg h4]
  by_cases h5 : c.toNat = 10
  · rw [if_pos h5, show c = Char.ofNat 10 from by rw [← h5, Char.ofNat_toNat]]
    rfl
  rw [if_neg h5]
  by_cases h6 : c.toNat = 12
  · rw [if_pos h6, show c = Char.ofNat 12 from by rw [← h6, Char.ofNat_toNat]]
    rfl
  rw [if_neg h6]
  by_cases h7 : c.toNat = 13
  · rw [if_pos h7, show c = Char.ofNat 13 from by rw [← h7, Char.ofNat_toNat]]
    rfl
  rw [if_neg h7]
  by_cases h8 : c.toNat < 32
  · rw [if_pos h8]
    show (hex4Val '0' '0' (hexCharLC (c.toNat / 16)) (hexCharLC (c.toNat % 16))).bind
        (fun n => if n < 0xD800 ∨ 0xDFFF < n then some (Char.ofNat n, rest) else none) =
      some (c, rest)
    rw [hex4Val_control c.toNat h8]
    simp only [Option.some_bind]
    rw [if_pos (Or.inl (by omega)), Char.ofNat_toNat]
  · rw [if_neg h8]
    simp only [List.cons_append, List.nil_append]
    simp only [strStep.eq_def]
    rw [if_neg h2, if_neg (by omega)]

theorem escapeJsonChar_head (c : Char) :
    ∃ d t, escapeJsonChar c = d :: t ∧ ¬d = '"' := by
  rw [escapeJsonChar]
  by_cases h1 : c = '"'
  · rw [if_pos h1]
    exact ⟨'\\', _, rfl, by decide⟩
  rw [if_neg h1]
  by_cases h2 : c = '\\'
  · rw [if_pos h2]
    exact ⟨'\\', _, rfl, by decide⟩
  rw [if_neg h2]
  by_cases h3 : c.toNat = 8
  · rw [if_pos h3]
    exact ⟨'\\', _, rfl, by decide⟩
  rw [if_neg h3]
  by_cases h4 : c.toNat = 9
  · rw [if_pos h4]
    exact ⟨'\\', _, rfl, by decide⟩
  rw [if_neg h4]
  by_cases h5 : c.toNat = 10
  · rw [if_pos h5]
    exact ⟨'\\', _, rfl, by decide⟩
  rw [if_neg h5]
  by_cases h6 : c.toNat = 12
  · rw [if_pos h6]
    exact ⟨'\\', _, rfl, by decide⟩
  rw [if_neg h6]
  by_cases h7 : c.toNat = 13
  · rw [if_pos h7]
    exact ⟨'\\', _, rfl, by decide⟩
  rw [if_neg h7]
  by_cases h8 : c.toNat < 32
  · rw [if_pos h8]
    exact ⟨'\\', _, rfl, by decide⟩
  · rw [if_neg h8]
    refine ⟨c, [], rfl, ?_⟩
    intro hc
    rw [hc] at h1
    exact h1 rfl

theorem parseStrGo_quoted (s : List Char) :
    ∀ f rest, s.length < f →
      parseStrGo f (s.flatMap escapeJsonChar ++ ('"' :: rest)) = some (s, rest) := by
  induction s with
  | nil =>
    intro f rest hf
    match f with
    | g + 1 =>
      simp only [List.flatMap_nil, List.nil_append]
      rw [parseStrGo, if_pos rfl]
  | cons c cs ih =>
    intro f rest hf
    match f with
    | g + 1 =>
      rw [List.flatMap_cons, List.append_assoc]
      obtain ⟨d, t, hdt, hd⟩ := escapeJsonChar_head c
      rw [hdt]
      simp only [List.cons_append]
      rw [parseStrGo, if_neg hd, ← List.cons_append, ← hdt, strStep_escape c _]
      show (parseStrGo g (cs.flatMap escapeJsonChar ++ ('"' :: rest))).map
        (fun p => (c :: p.1, p.2)) = some (c :: cs, rest)
      rw [ih g rest (by simp at hf; omega)]
      rfl

theorem escapeJsonChar_ne_nil (c : Char) : escapeJsonChar c ≠ [] := by
  obtain ⟨d, t, hdt, _⟩ := escapeJsonChar_head c
  rw [hdt]
  simp

theorem escape_length_ge (s : List Char) : s.length ≤ (s.flatMap escapeJsonChar).length := by
  induction s with
  | nil => simp
  | cons c cs ih =>
    rw [List.flatMap_cons, List.length_append]
    have h1 : 1 ≤ (escapeJsonChar c).length := by
      cases h : escapeJsonChar c with
      | nil => exact absurd h (escapeJsonChar_ne_nil c)
      | cons x xs => simp
    simp only [List.length_cons]
    omega

theorem parseStrBody_quoted (s : List Char) (rest : List Char) :
    parseStrBody (s.flatMap escapeJsonChar ++ ('"' :: rest)) = some (s, rest) := by
  rw [parseStrBody]
  refine parseStrGo_quoted s _ rest ?_
  have h1 := escape_length_ge s
  simp only [List.length_append, List.length_cons]
  omega

theorem hasKeyF_appendF : ∀ (a b : JFields) (k : List Char),
    hasKeyF (appendF a b) k = (hasKeyF a k || hasKeyF b k)
  | .nil, b, k => by simp [appendF, hasKeyF]
  | .cons k0 v0 tl, b, k => by
    simp [appendF, hasKeyF, hasKeyF_appendF tl b k, Bool.or_assoc]

theorem appendF_nil : ∀ a : JFields, appendF a .nil = a
  | .nil => rfl
  | .cons k v tl => by rw [appendF, appendF_nil tl]

theorem appendF_assoc : ∀ a b c : JFields,
    appendF (appendF a b) c = appendF a (appendF b c)
  | .nil, _, _ => rfl
  | .cons k v tl, b, c => by rw [appendF, appendF, appendF_assoc tl b c, appendF]

theorem fieldsUpsert_absent : ∀ (acc : JFields) (k : List Char) (v : JVal),
    hasKeyF acc k = false → fieldsUpsert acc k v = appendF acc (.cons k v .nil)
  | .nil, k, v, _ => rfl
  | .cons k0 v0 tl, k, v, h => by
    simp only [hasKeyF, Bool.or_eq_false_iff, decide_eq_false_iff_not] at h
    rw [fieldsUpsert, if_neg (by simpa using h.1), appendF, fieldsUpsert_absent tl k v h.2]

theorem keysNotIn_extend : ∀ (tl acc : JFields) (k : List Char) (v : JVal),
    keysNotIn tl acc = true → hasKeyF tl k = false →
    keysNotIn tl (appendF acc (.cons k v .nil)) = true
  | .nil, _, _, _, _, _ => rfl
  | .cons k0 v0 t, acc, k, v, h1, h2 => by
    simp only [keysNotIn, Bool.and_eq_true, Bool.not_eq_eq_eq_not, Bool.not_true] at h1 ⊢
    simp only [hasKeyF, Bool.or_eq_false_iff, decide_eq_false_iff_not] at h2
    refine ⟨?_, keysNotIn_extend t acc k v h1.2 h2.2⟩
    rw [hasKeyF_appendF, h1.1]
    simp only [hasKeyF, Bool.or_false, Bool.false_or]
    simp only [decide_eq_false_iff_not]
    intro hk
    exact h2.1 hk.symm

theorem keysNotIn_nil_right : ∀ fs : JFields, keysNotIn fs .nil = true
  | .nil => rfl
  | .cons k v tl => by simp [keysNotIn, hasKeyF, keysNotIn_nil_right tl]

theorem collapseGo_fresh : ∀ (fs acc : JFields),
    keysDistinct fs = true → keysNotIn fs acc = true →
    collapseGo acc fs = appendF acc fs
  | .nil, acc, _, _ => by rw [collapseGo, appendF_nil]
  | .cons k v tl, acc, hdist, hnotin => by
    simp only [keysDistinct, Bool.and_eq_true, Bool.not_eq_eq_eq_not, Bool.not_true] at hdist
    simp only [keysNotIn, Bool.and_eq_true, Bool.not_eq_eq_eq_not, Bool.not_true] at hnotin
    rw [collapseGo, fieldsUpsert_absent acc k v hnotin.1,
      collapseGo_fresh tl (appendF acc (.cons k v .nil)) hdist.2
        (keysNotIn_extend tl acc k v hnotin.2 hdist.1),
      appendF_assoc]
    rfl

theorem collapseFields_distinct (fs : JFields) (h : keysDistinct fs = true) :
    collapseFields fs = fs := by
  rw [collapseFields, collapseGo_fresh fs .nil h (keysNotIn_nil_right fs)]
  rfl

theorem numStop_of_jsonStop (r : List Char) (h : jsonStop r = true) : numStop r = true := by
  cases r with
  | nil => rfl
  | cons c t =>
    simp only [jsonStop, Bool.or_eq_true, decide_eq_true_eq] at h
    rcases h with (h | h) | h <;> (subst h; rfl)

theorem dropWs_cons (c : Char) (x : List Char) (h : jsonWsChar c = false) :
    dropWs (c :: x) = c :: x := by
  rw [dropWs]
  simp [h]

theorem stringify_head (v : JVal) :
    ∃ c t, jsonStringify v = c :: t ∧ jsonWsChar c = false ∧
      ¬c = ',' ∧ ¬c = ']' ∧ ¬c = rbrace := by
  cases v with
  | null => exact ⟨'n', _, rfl, by decide, by decide, by decide, by decide⟩
  | bool b =>
    cases b with
    | true => exact ⟨'t', _, rfl, by decide, by decide, by decide, by decide⟩
    | false => exact ⟨'f', _, rfl, by decide, by decide, by decide, by decide⟩
  | str s => exact ⟨'"', _, rfl, by decide, by decide, by decide, by decide⟩
  | arr es => exact ⟨'[', _, rfl, by decide, by decide, by decide, by decide⟩
  | obj fs => exact ⟨lbrace, _, rfl, by decide, by decide, by decide, by decide⟩
  | num i =>
    rw [show jsonStringify (.num i) = intChars i from rfl, intChars]
    by_cases hi : i < 0
    · rw [if_pos hi]
      exact ⟨'-', _, rfl, by decide, by decide, by decide, by decide⟩
    · rw [if_neg hi]
      cases hh : natChars i.natAbs with
      | nil => exact absurd hh (natChars_ne_nil _)
      | cons d ds =>
        have hd : isDigitChar d = true := natChars_digits i.natAbs d (by rw [hh]; simp)
        obtain ⟨_, _, _, _, _, _, _, hws, hc1, hc2, hc3, _⟩ := isDigitChar_facts d hd
        exact ⟨d, ds, rfl, hws, hc1, hc2, hc3⟩

theorem stringify_shape (v : JVal) :
    ∃ c t, jsonStringify v = c :: t := by
  obtain ⟨c, t, h, _⟩ := stringify_head v
  exact ⟨c, t, h⟩

theorem stringify_length_pos (v : JVal) : 1 ≤ (jsonStringify v).length := by
  obtain ⟨c, t, h⟩ := stringify_shape v
  rw [h]
  simp

theorem dropWs_stringify (v : JVal) (x : List Char) :
    dropWs (jsonStringify v ++ x) = jsonStringify v ++ x := by
  obtain ⟨c, t, h, hws, _⟩ := stringify_head v
  rw [h, List.cons_append, dropWs_cons c _ hws]

/-- One-step unfolding of `parseJVal` once the whitespace-stripped head is
known. -/
theorem parseJVal_step (f : Nat) (s : List Char) (c : Char) (r : List Char)
    (hd : dropWs s = c :: r) :
    parseJVal (f + 1) s =
      (if c = 'n' then litTail ['u', 'l', 'l'] .null r
      else if c = 't' then litTail ['r', 'u', 'e'] (.bool true) r
      else if c = 'f' then litTail ['a', 'l', 's', 'e'] (.bool false) r
      else if c = '"' then (parseStrBody r).map (fun p => (JVal.str p.1, p.2))
      else if c = '[' then
        match dropWs r with
        | c2 :: r2 =>
          if c2 = ']' then some (.arr .nil, r2)
          else (parseItems f (c2 :: r2)).map (fun p => (JVal.arr p.1, p.2))
        | [] => none
      else if c = lbrace then
        match dropWs r with
        | c2 :: r2 =>
          if c2 = rbrace then some (.obj .nil, r2)
          else (parseFields f (c2 :: r2)).map (fun p => (JVal.obj (collapseFields p.1), p.2))
        | [] => none
      else if c = '-' ∨ isDigitChar c then
        (parseIntTok (c :: r)).map (fun p => (JVal.num p.1, p.2))
      else none) := by
  rw [parseJVal]
  simp only [hd]

theorem litTail_exact (kw : List Char) (out : JVal) (rest : List Char) :
    litTail kw out (kw ++ rest) = some (out, rest) := by
  rw [litTail, if_pos ?hp, List.drop_left]
  case hp =>
    rw [List.isPrefixOf_iff_prefix]
    exact List.prefix_append kw rest

theorem quoteJson_append (k : List Char) (x : List Char) :
    quoteJson k ++ x = '"' :: (k.flatMap escapeJsonChar ++ ('"' :: x)) := by
  simp [quoteJson, List.append_assoc]

theorem quoteJson_length (k : List Char) : 2 ≤ (quoteJson k).length := by
  simp [quoteJson]

mutual
theorem parseJVal_stringify : ∀ (v : JVal) (f : Nat) (rest : List Char),
    (jsonStringify v).length < f → jsonStop rest = true → jwf v = true →
    parseJVal f (jsonStringify v ++ rest) = some (v, rest)
  | .null, f, rest, hf, _, _ => by
    cases f with
    | zero => exact absurd hf (by omega)
    | succ g =>
      rw [show jsonStringify JVal.null ++ rest = 'n' :: (['u', 'l', 'l'] ++ rest) from rfl]
      rw [parseJVal_step g _ 'n' (['u', 'l', 'l'] ++ rest) (dropWs_cons _ _ (by decide))]
      rw [if_pos rfl]
      exact litTail_exact ['u', 'l', 'l'] JVal.null rest
  | .bool true, f, rest, hf, _, _ => by
    cases f with
    | zero => exact absurd hf (by omega)
    | succ g =>
      rw [show jsonStringify (JVal.bool true) ++ rest =
        't' :: (['r', 'u', 'e'] ++ rest) from rfl]
      rw [parseJVal_step g _ 't' (['r', 'u', 'e'] ++ rest) (dropWs_cons _ _ (by decide))]
      rw [if_neg (by decide), if_pos rfl]
      exact litTail_exact ['r', 'u', 'e'] (JVal.bool true) rest
  | .bool false, f, rest, hf, _, _ => by
    cases f with
    | zero => exact absurd hf (by omega)
    | succ g =>
      rw [show jsonStringify (JVal.bool false) ++ rest =
        'f' :: (['a', 'l', 's', 'e'] ++ rest) from rfl]
      rw [parseJVal_step g _ 'f' (['a', 'l', 's', 'e'] ++ rest) (dropWs_cons _ _ (by decide))]
      rw [if_neg (by decide), if_neg (by decide), if_pos rfl]
      exact litTail_exact ['a', 'l', 's', 'e'] (JVal.bool false) rest
  | .num i, f, rest, hf, hstop, _ => by
    cases f with
    | zero => exact absurd hf (by omega)
    | succ g =>
      rw [show jsonStringify (.num i) = intChars i from rfl] at hf ⊢
      obtain ⟨c0, t0, hsh, hws, _⟩ := stringify_head (.num i)
      rw [show jsonStringify (.num i) = intChars i from rfl] at hsh
      have hd : dropWs (intChars i ++ rest) = c0 :: (t0 ++ rest) := by
        rw [hsh, List.cons_append]
        exact dropWs_cons c0 (t0 ++ rest) hws
      have hnum : c0 = '-' ∨ isDigitChar c0 := by
        rw [intChars] at hsh
        by_cases hi : i < 0
        · rw [if_pos hi] at hsh
          exact Or.inl (List.cons.injEq .. ▸ hsh).1.symm
        · rw [if_neg hi] at hsh
          refine Or.inr (natChars_digits i.natAbs c0 ?_)
          rw [hsh]
          simp
      have hnotn : ¬c0 = 'n' := by
        rcases hnum with h | h
        · rw [h]; decide
        · exact (isDigitChar_facts c0 h).1
      have hnott : ¬c0 = 't' := by
        rcases hnum with h | h
        · rw [h]; decide
        · exact (isDigitChar_facts c0 h).2.1
      have hnotf : ¬c0 = 'f' := by
        rcases hnum with h | h
        · rw [h]; decide
        · exact (isDigitChar_facts c0 h).2.2.1
      have hnotq : ¬c0 = '"' := by
        rcases hnum with h | h
        · rw [h]; decide
        · exact (isDigitChar_facts c0 h).2.2.2.1
      have hnotb : ¬c0 = '[' := by
        rcases hnum with h | h
        · rw [h]; decide
        · exact (isDigitChar_facts c0 h).2.2.2.2.1
      have hnoto : ¬c0 = lbrace := by
        rcases hnum with h | h
        · rw [h]; decide
        · exact (isDigitChar_facts c0 h).2.2.2.2.2.1
      rw [parseJVal_step g _ c0 (t0 ++ rest) hd, if_neg hnotn, if_neg hnott, if_neg hnotf,
        if_neg hnotq, if_neg hnotb, if_neg hnoto, if_pos hnum, ← List.cons_append, ← hsh,
        parseIntTok_intChars i rest (numStop_of_jsonStop rest hstop)]
      rfl
  | .str s0, f, rest, hf, _, _ => by
    cases f with
    | zero => exact absurd hf (by omega)
    | succ g =>
      rw [show jsonStringify (.str s0) = quoteJson s0 from rfl, quoteJson_append]
      have hd : dropWs ('"' :: (s0.flatMap escapeJsonChar ++ ('"' :: rest))) =
          '"' :: (s0.flatMap escapeJsonChar ++ ('"' :: rest)) :=
        dropWs_cons _ _ (by decide)
      rw [parseJVal_step g _ '"' _ hd, if_neg (by decide), if_neg (by decide),
        if_neg (by decide), if_pos rfl, parseStrBody_quoted s0 rest]
      rfl
  | .arr .nil, f, rest, hf, _, _ => by
    cases f with
    | zero => exact absurd hf (by omega)
    | succ g =>
      rw [show jsonStringify (JVal.arr .nil) ++ rest = '[' :: (']' :: rest) from rfl]
      rw [parseJVal_step g _ '[' (']' :: rest) (dropWs_cons _ _ (by decide))]
      rw [if_neg (by decide), if_neg (by decide), if_neg (by decide), if_neg (by decide),
        if_pos rfl]
      rfl
  | .arr (.cons v tl), f, rest, hf, _, hwf => by
    cases f with
    | zero => exact absurd hf (by omega)
    | succ g =>
      have hwf2 : jwfItems (.cons v tl) = true := by
        rw [show jwf (.arr (.cons v tl)) = jwfItems (.cons v tl) from rfl] at hwf
        exact hwf
      have hlen : (jsonStringify (.arr (.cons v tl))).length =
          (stringifyItems (.cons v tl)).length + 2 := by
        rw [show jsonStringify (.arr (.cons v tl)) =
          '[' :: (stringifyItems (.cons v tl) ++ [']']) from rfl]
        simp
      rw [show jsonStringify (.arr (.cons v tl)) ++ rest =
        '[' :: (stringifyItems (.cons v tl) ++ (']' :: rest)) from by
          rw [show jsonStringify (.arr (.cons v tl)) =
            '[' :: (stringifyItems (.cons v tl) ++ [']']) from rfl]
          simp]
      have hd : dropWs ('[' :: (stringifyItems (.cons v tl) ++ (']' :: rest))) =
          '[' :: (stringifyItems (.cons v tl) ++ (']' :: rest)) :=
        dropWs_cons _ _ (by decide)
      rw [parseJVal_step g _ '[' _ hd, if_neg (by decide), if_neg (by decide),
        if_neg (by decide), if_neg (by decide), if_pos rfl]
      obtain ⟨c0, t0, hsh0, hws0, _, hne0, _⟩ := stringify_head v
      have hshape : stringifyItems (.cons v tl) ++ (']' :: rest) =
          c0 :: (t0 ++ (stringifyItems (.cons v tl)).drop (jsonStringify v).length ++
            (']' :: rest)) := by
        cases tl with
        | nil =>
          rw [show stringifyItems (.cons v .nil) = jsonStringify v from rfl, hsh0]
          simp
        | cons w tw =>
          rw [show stringifyItems (.cons v (.cons w tw)) =
            jsonStringify v ++ (',' :: stringifyItems (.cons w tw)) from rfl, hsh0]
          simp
      rw [hshape]
      rw [show dropWs (c0 :: (t0 ++ (stringifyItems (.cons v tl)).drop
          (jsonStringify v).length ++ (']' :: rest))) =
        c0 :: (t0 ++ (stringifyItems (.cons v tl)).drop (jsonStringify v).length ++
          (']' :: rest)) from dropWs_cons _ _ hws0]
      show (if c0 = ']' then some (JVal.arr .nil, t0 ++
          (stringifyItems (.cons v tl)).drop (jsonStringify v).length ++ (']' :: rest))
        else (parseItems g (c0 :: (t0 ++ (stringifyItems (.cons v tl)).drop
          (jsonStringify v).length ++ (']' :: rest)))).map
            (fun p => (JVal.arr p.1, p.2))) = some (.arr (.cons v tl), rest)
      rw [if_neg hne0, ← hshape, parseItems_stringify (.cons v tl) g rest
        (by intro h; cases h) (by omega) hwf2]
      rfl
  | .obj .nil, f, rest, hf, _, _ => by
    cases f with
    | zero => exact absurd hf (by omega)
    | succ g =>
      rw [show jsonStringify (JVal.obj .nil) ++ rest = lbrace :: (rbrace :: rest) from rfl]
      rw [parseJVal_step g _ lbrace (rbrace :: rest) (dropWs_cons _ _ (by decide))]
      rw [if_neg (by decide), if_neg (by decide), if_neg (by decide), if_neg (by decide),
        if_neg (by decide), if_pos rfl]
      rfl
  | .obj (.cons k v tl), f, rest, hf, _, hwf => by
    cases f with
    | zero => exact absurd hf (by omega)
    | succ g =>
      rw [show jwf (.obj (.cons k v tl)) =
        (keysDistinct (.cons k v tl) && jwfFields (.cons k v tl)) from rfl,
        Bool.and_eq_true] at hwf
      have hlen : (jsonStringify (.obj (.cons k v tl))).length =
          (stringifyFields (.cons k v tl)).length + 2 := by
        rw [show jsonStringify (.obj (.cons k v tl)) =
          lbrace :: (stringifyFields (.cons k v tl) ++ [rbrace]) from rfl]
        simp
      rw [show jsonStringify (.obj (.cons k v tl)) ++ rest =
        lbrace :: (stringifyFields (.cons k v tl) ++ (rbrace :: rest)) from by
          rw [show jsonStringify (.obj (.cons k v tl)) =
            lbrace :: (stringifyFields (.cons k v tl) ++ [rbrace]) from rfl]
          simp]
      have hd : dropWs (lbrace :: (stringifyFields (.cons k v tl) ++ (rbrace :: rest))) =
          lbrace :: (stringifyFields (.cons k v tl) ++ (rbrace :: rest)) :=
        dropWs_cons _ _ (by decide)
      rw [parseJVal_step g _ lbrace _ hd, if_neg (by decide), if_neg (by decide),
        if_neg (by decide), if_neg (by decide), if_neg (by decide), if_pos rfl]
      have hshape : stringifyFields (.cons k v tl) ++ (rbrace :: rest) =
          '"' :: ((stringifyFields (.cons k v tl)).drop 1 ++ (rbrace :: rest)) := by
        cases tl with
        | nil =>
          rw [show stringifyFields (.cons k v .nil) =
            quoteJson k ++ ':' :: jsonStringify v from rfl, quoteJson]
          simp
        | cons k2 v2 tw =>
          rw [show stringifyFields (.cons k v (.cons k2 v2 tw)) =
            quoteJson k ++ ':' :: jsonStringify v ++ ',' ::
              stringifyFields (.cons k2 v2 tw) from rfl, quoteJson]
          simp
      rw [hshape]
      rw [show dropWs ('"' :: ((stringifyFields (.cons k v tl)).drop 1 ++ (rbrace :: rest))) =
        '"' :: ((stringifyFields (.cons k v tl)).drop 1 ++ (rbrace :: rest)) from
          dropWs_cons _ _ (by decide)]
      show (if '"' = rbrace then some (JVal.obj .nil, (stringifyFields (.cons k v tl)).drop 1 ++
          (rbrace :: rest))
        else (parseFields g ('"' :: ((stringifyFields (.cons k v tl)).drop 1 ++
          (rbrace :: rest)))).map (fun p => (JVal.obj (collapseFields p.1), p.2))) =
        some (.obj (.cons k v tl), rest)
      rw [if_neg (by decide), ← hshape, parseFields_stringify (.cons k v tl) g rest
        (by intro h; cases h) (by omega) hwf.2]
      simp only [Option.map_some']
      rw [collapseFields_distinct (.cons k v tl) hwf.1]

theorem parseItems_stringify : ∀ (es : JList) (f : Nat) (rest : List Char),
    es ≠ .nil → (stringifyItems es).length + 1 < f → jwfItems es = true →
    parseItems f (stringifyItems es ++ (']' :: rest)) = some (es, rest)
  | .nil, _, _, hne, _, _ => absurd rfl hne
  | .cons v tl, f, rest, _, hf, hwf => by
    rw [show jwfItems (.cons v tl) = (jwf v && jwfItems tl) from rfl,
      Bool.and_eq_true] at hwf
    cases f with
    | zero => exact absurd hf (by omega)
    | succ g =>
      rw [parseItems]
      cases tl with
      | nil =>
        rw [show stringifyItems (.cons v .nil) = jsonStringify v from rfl] at hf ⊢
        rw [parseJVal_stringify v g (']' :: rest) (by omega) rfl hwf.1]
        simp only [Option.some_bind]
        rfl
      | cons w tw =>
        have hsh : stringifyItems (.cons v (.cons w tw)) =
            jsonStringify v ++ (',' :: stringifyItems (.cons w tw)) := rfl
        have hlenv := stringify_length_pos v
        have hlen : (stringifyItems (.cons v (.cons w tw))).length =
            (jsonStringify v).length + 1 + (stringifyItems (.cons w tw)).length := by
          rw [hsh]
          simp
          omega
        rw [hsh, List.append_assoc, List.cons_append]
        rw [parseJVal_stringify v g
          (',' :: (stringifyItems (.cons w tw) ++ (']' :: rest))) (by omega) rfl hwf.1]
        simp only [Option.some_bind]
        show (parseItems g (stringifyItems (.cons w tw) ++ (']' :: rest))).map
          (fun q => (JList.cons v q.1, q.2)) = some (.cons v (.cons w tw), rest)
        rw [parseItems_stringify (.cons w tw) g rest (by intro h; cases h)
          (by omega) hwf.2]
        rfl

theorem parseFields_stringify : ∀ (fs : JFields) (f : Nat) (rest : List Char),
    fs ≠ .nil → (stringifyFields fs).length + 1 < f → jwfFields fs = true →
    parseFields f (stringifyFields fs ++ (rbrace :: rest)) = some (fs, rest)
  | .nil, _, _, hne, _, _ => absurd rfl hne
  | .cons k v tl, f, rest, _, hf, hwf => by
    rw [show jwfFields (.cons k v tl) = (jwf v && jwfFields tl) from rfl,
      Bool.and_eq_true] at hwf
    cases f with
    | zero => exact absurd hf (by omega)
    | succ g =>
      rw [parseFields]
      have hql := quoteJson_length k
      have hlenv := stringify_length_pos v
      cases tl with
      | nil =>
        have hsh : stringifyFields (.cons k v .nil) =
            quoteJson k ++ ':' :: jsonStringify v := rfl
        have hlen : (stringifyFields (.cons k v .nil)).length =
            (quoteJson k).length + 1 + (jsonStringify v).length := by
          rw [hsh]
          simp
          omega
        rw [hsh, List.append_assoc, List.cons_append, quoteJson_append]
        rw [show dropWs ('"' :: (k.flatMap escapeJsonChar ++
            ('"' :: (':' :: (jsonStringify v ++ (rbrace :: rest)))))) =
          '"' :: (k.flatMap escapeJsonChar ++
            ('"' :: (':' :: (jsonStringify v ++ (rbrace :: rest))))) from
          dropWs_cons _ _ (by decide)]
        show (parseStrBody (k.flatMap escapeJsonChar ++
            ('"' :: (':' :: (jsonStringify v ++ (rbrace :: rest)))))).bind
          (fun pk =>
            match dropWs pk.2 with
            | c2 :: r2 =>
              if c2 = ':' then
                (parseJVal g r2).bind (fun pv =>
                  match dropWs pv.2 with
                  | c3 :: r3 =>
                    if c3 = ',' then
                      (parseFields g r3).map (fun q => (JFields.cons pk.1 pv.1 q.1, q.2))
                    else if c3 = rbrace then some (JFields.cons pk.1 pv.1 .nil, r3)
                    else none
                  | [] => none)
              else none
            | [] => none) = some (.cons k v .nil, rest)
        rw [parseStrBody_quoted k (':' :: (jsonStringify v ++ (rbrace :: rest)))]
        simp only [Option.some_bind]
        show (parseJVal g (jsonStringify v ++ (rbrace :: rest))).bind (fun pv =>
            match dropWs pv.2 with
            | c3 :: r3 =>
              if c3 = ',' then
                (parseFields g r3).map (fun q => (JFields.cons k pv.1 q.1, q.2))
              else if c3 = rbrace then some (JFields.cons k pv.1 .nil, r3)
              else none
            | [] => none) = some (.cons k v .nil, rest)
        rw [parseJVal_stringify v g (rbrace :: rest) (by omega) rfl hwf.1]
        simp only [Option.some_bind]
        rfl
      | cons k2 v2 tw =>
        have hsh : stringifyFields (.cons k v (.cons k2 v2 tw)) =
            quoteJson k ++ ':' :: jsonStringify v ++ ',' ::
              stringifyFields (.cons k2 v2 tw) := rfl
        have hlen : (stringifyFields (.cons k v (.cons k2 v2 tw))).length =
            (quoteJson k).length + 1 + (jsonStringify v).length + 1 +
              (stringifyFields (.cons k2 v2 tw)).length := by
          rw [hsh]
          simp
          omega
        rw [hsh]
        rw [show (quoteJson k ++ ':' :: jsonStringify v ++ ',' ::
            stringifyFields (.cons k2 v2 tw)) ++ (rbrace :: rest) =
          quoteJson k ++ (':' :: (jsonStringify v ++ (',' ::
            (stringifyFields (.cons k2 v2 tw) ++ (rbrace :: rest))))) from by
          simp]
        rw [quoteJson_append]
        rw [show dropWs ('"' :: (k.flatMap escapeJsonChar ++
            ('"' :: (':' :: (jsonStringify v ++ (',' ::
              (stringifyFields (.cons k2 v2 tw) ++ (rbrace :: rest)))))))) =
          '"' :: (k.flatMap escapeJsonChar ++
            ('"' :: (':' :: (jsonStringify v ++ (',' ::
              (stringifyFields (.cons k2 v2 tw) ++ (rbrace :: rest))))))) from
          dropWs_cons _ _ (by decide)]
        show (parseStrBody (k.flatMap escapeJsonChar ++
            ('"' :: (':' :: (jsonStringify v ++ (',' ::
              (stringifyFields (.cons k2 v2 tw) ++ (rbrace :: rest)))))))).bind
          (fun pk =>
            match dropWs pk.2 with
            | c2 :: r2 =>
              if c2 = ':' then
                (parseJVal g r2).bind (fun pv =>
                  match dropWs pv.2 with
                  | c3 :: r3 =>
                    if c3 = ',' then
                      (parseFields g r3).map (fun q => (JFields.cons pk.1 pv.1 q.1, q.2))
                    else if c3 = rbrace then some (JFields.cons pk.1 pv.1 .nil, r3)
                    else none
                  | [] => none)
              else none
            | [] => none) = some (.cons k v (.cons k2 v2 tw), rest)
        rw [parseStrBody_quoted k (':' :: (jsonStringify v ++ (',' ::
          (stringifyFields (.cons k2 v2 tw) ++ (rbrace :: rest)))))]
        simp only [Option.some_bind]
        show (parseJVal g (jsonStringify v ++ (',' ::
            (stringifyFields (.cons k2 v2 tw) ++ (rbrace :: rest))))).bind (fun pv =>
            match dropWs pv.2 with
            | c3 :: r3 =>
              if c3 = ',' then
                (parseFields g r3).map (fun q => (JFields.cons k pv.1 q.1, q.2))
              else if c3 = rbrace then some (JFields.cons k pv.1 .nil, r3)
              else none
            | [] => none) = some (.cons k v (.cons k2 v2 tw), rest)
        rw [parseJVal_stringify v g (',' ::
          (stringifyFields (.cons k2 v2 tw) ++ (rbrace :: rest))) (by omega) rfl hwf.1]
        simp only [Option.some_bind]
        show (parseFields g (stringifyFields (.cons k2 v2 tw) ++ (rbrace :: rest))).map
          (fun q => (JFields.cons k v q.1, q.2)) = some (.cons k v (.cons k2 v2 tw), rest)
        rw [parseFields_stringify (.cons k2 v2 tw) g rest (by intro h; cases h)
          (by omega) hwf.2]
        rfl
end

/-- `JSON.parse` inverts `JSON.stringify` on every well-formed value. -/
theorem jsonParse_stringify (v : JVal) (h : jwf v = true) :
    jsonParse (jsonStringify v) = some v := by
  rw [jsonParse]
  have hmain := parseJVal_stringify v ((jsonStringify v).length + 1) [] (by omega) rfl h
  rw [List.append_nil] at hmain
  rw [hmain]
  rfl

/-! ### Key-wise behaviour of the `URLSearchParams` and object operations -/
theorem paramsGet_nil (k : List Char) : paramsGet [] k = none := rfl

theorem paramsGet_cons (p : List Char × List Char) (ps : Params) (k : List Char) :
    paramsGet (p :: ps) k = if p.1 = k then some p.2 else paramsGet ps k := by
  by_cases h : p.1 = k <;> simp [paramsGet, List.find?_cons, h]

theorem paramsDelete_cons (p : List Char × List Char) (ps : Params) (k : List Char) :
    paramsDelete (p :: ps) k =
      if p.1 = k then paramsDelete ps k else p :: paramsDelete ps k := by
  by_cases h : p.1 = k <;> simp [paramsDelete, List.filter_cons, h]

theorem paramsGet_paramsDelete_ne (ps : Params) (k k2 : List Char) (h : k ≠ k2) :
    paramsGet (paramsDelete ps k) k2 = paramsGet ps k2 := by
  induction ps with
  | nil => rfl
  | cons p tl ih =>
    rw [paramsDelete_cons]
    by_cases h1 : p.1 = k
    · rw [if_pos h1, ih, paramsGet_cons, if_neg (h1 ▸ fun hh => h (hh.symm ▸ rfl))]
    · rw [if_neg h1, paramsGet_cons, paramsGet_cons, ih]

theorem paramsGet_paramsSet_ne (ps : Params) (k v : List Char) (k2 : List Char)
    (h : k ≠ k2) : paramsGet (paramsSet ps k v) k2 = paramsGet ps k2 := by
  induction ps with
  | nil => rw [paramsSet, paramsGet_cons, if_neg h, paramsGet_nil]
  | cons p tl ih =>
    match p with
    | (k0, v0) =>
      rw [paramsSet]
      by_cases h1 : k0 = k
      · rw [if_pos h1, paramsGet_cons, paramsGet_cons]
        simp only
        rw [if_neg h, if_neg (h1 ▸ fun hh => h (hh ▸ rfl)), paramsGet_paramsDelete_ne tl k k2 h]
      · rw [if_neg h1, paramsGet_cons, paramsGet_cons]
        simp only
        by_cases h2 : k0 = k2
        · rw [if_pos h2, if_pos h2]
        · rw [if_neg h2, if_neg h2, ih]

theorem paramsGet_clearNsOwned_ne (n : List Char) (ps : Params) (k : List Char)
    (h : nsOwns n k = false) : paramsGet (clearNsOwned n ps) k = paramsGet ps k := by
  induction ps with
  | nil => rfl
  | cons p tl ih =>
    by_cases h1 : nsOwns n p.1
    · have hcl : clearNsOwned n (p :: tl) = clearNsOwned n tl := by
        simp [clearNsOwned, List.filter_cons, h1]
      have hne : p.1 ≠ k := fun hh => by rw [hh, h] at h1; cases h1
      rw [hcl, ih, paramsGet_cons, if_neg hne]
    · have hcl : clearNsOwned n (p :: tl) = p :: clearNsOwned n tl := by
        simp [clearNsOwned, List.filter_cons, h1]
      rw [hcl, paramsGet_cons, paramsGet_cons, ih]

theorem objGet_nil {α : Type} (k : List Char) : objGet ([] : List (List Char × α)) k = none := rfl

theorem objGet_cons {α : Type} (e : List Char × α) (m : List (List Char × α)) (k : List Char) :
    objGet (e :: m) k = if e.1 = k then some e.2 else objGet m k := by
  by_cases h : e.1 = k <;> simp [objGet, List.find?_cons, h]

theorem objGet_objUpsert {α : Type} (m : List (List Char × α)) (k : List Char) (v : α)
    (k2 : List Char) :
    objGet (objUpsert m k v) k2 = if k = k2 then some v else objGet m k2 := by
  induction m with
  | nil =>
    rw [objUpsert, objGet_cons, objGet_nil]
  | cons e tl ih =>
    match e with
    | (k0, a0) =>
      rw [objUpsert]
      by_cases h1 : k0 = k
      · subst h1
        rw [if_pos rfl, objGet_cons, objGet_cons]
        simp only
        by_cases h2 : k0 = k2
        · rw [if_pos h2, if_pos h2]
        · rw [if_neg h2, if_neg h2, if_neg h2]
      · rw [if_neg h1, objGet_cons, objGet_cons]
        simp only
        by_cases h2 : k0 = k2
        · subst h2
          rw [if_pos rfl, if_pos rfl, if_neg fun hh => h1 hh.symm]
        · rw [if_neg h2, if_neg h2, ih]

theorem objGet_objDelete {α : Type} (m : List (List Char × α)) (k k2 : List Char) :
    objGet (objDelete m k) k2 = if k = k2 then none else objGet m k2 := by
  induction m with
  | nil =>
    by_cases h : k = k2 <;> simp [objDelete, objGet_nil, h]
  | cons e tl ih =>
    by_cases h1 : e.1 = k
    · have hd : objDelete (e :: tl) k = objDelete tl k := by
        simp [objDelete, List.filter_cons, h1]
      rw [hd, ih, objGet_cons]
      by_cases h2 : k = k2
      · rw [if_pos h2, if_pos h2]
      · rw [if_neg h2, if_neg h2, if_neg (h1 ▸ fun hh => h2 (hh ▸ rfl))]
    · have hd : objDelete (e :: tl) k = e :: objDelete tl k := by
        simp [objDelete, List.filter_cons, h1]
      rw [hd, objGet_cons, ih, objGet_cons]
      by_cases h2 : e.1 = k2
      · rw [if_pos h2, if_neg (h2 ▸ fun hh => h1 (hh ▸ rfl)), if_pos h2]
      · rw [if_neg h2, if_neg h2]

theorem noDupKeys_objUpsert {α : Type} (m : List (List Char × α)) (k : List Char) (v : α)
    (h : noDupKeys m = true) : noDupKeys (objUpsert m k v) = true := by
  induction m with
  | nil => simp [objUpsert, noDupKeys, objGet_nil]
  | cons e tl ih =>
    rw [noDupKeys, Bool.and_eq_true] at h
    match e with
    | (k0, a0) =>
      rw [objUpsert]
      by_cases h1 : k0 = k
      · subst h1
        rw [if_pos rfl, noDupKeys, Bool.and_eq_true]
        exact ⟨h.1, h.2⟩
      · rw [if_neg h1, noDupKeys, Bool.and_eq_true]
        refine ⟨?_, ih h.2⟩
        simp only
        rw [objGet_objUpsert, if_neg fun hh => h1 hh.symm]
        exact h.1

theorem noDupKeys_cons_none {α : Type} (e : List Char × α) (tl : List (List Char × α))
    (h : noDupKeys (e :: tl) = true) : objGet tl e.1 = none ∧ noDupKeys tl = true := by
  rw [noDupKeys, Bool.and_eq_true, Bool.not_eq_true'] at h
  exact ⟨Option.not_isSome_iff_eq_none.mp (by rw [h.1]; exact Bool.false_ne_true), h.2⟩

theorem objGet_applyPartial_toPartial (p : StateMap) :
    ∀ (snap : StateMap) (k : List Char), noDupKeys p = true →
      objGet (applyPartial snap (toPartial p)) k = (objGet p k).or (objGet snap k) := by
  induction p with
  | nil => intro snap k _; rfl
  | cons e tl ih =>
    intro snap k hnd
    have hd := noDupKeys_cons_none e tl hnd
    rw [toPartial, List.map_cons]
    rw [show applyPartial snap ((e.1, some e.2) :: tl.map (fun e => (e.1, some e.2))) =
          applyPartial (objUpsert snap e.1 e.2) (toPartial tl) from rfl]
    rw [ih (objUpsert snap e.1 e.2) k hd.2, objGet_cons, objGet_objUpsert]
    by_cases h1 : e.1 = k
    · rw [if_pos h1, if_pos h1]
      subst h1
      rw [hd.1, Option.none_or]
      rfl
    · rw [if_neg h1, if_neg h1]

theorem lastVal_cons (e : List Char × Option JVal) (tl : PartialState) (k : List Char) :
    lastVal (e :: tl) k = (lastVal tl k).or (if e.1 = k then some e.2 else none) := by
  rw [lastVal]
  cases lastVal tl k <;> rfl

theorem lastVal_append (a b : PartialState) (k : List Char) :
    lastVal (a ++ b) k = (lastVal b k).or (lastVal a k) := by
  induction a with
  | nil => rw [List.nil_append, lastVal, Option.or_none]
  | cons e tl ih =>
    rw [List.cons_append, lastVal_cons, lastVal_cons, ih, Option.or_assoc]

theorem objGet_partialMerge (b : PartialState) :
    ∀ (a : PartialState) (k : List Char),
      objGet (partialMerge a b) k = (lastVal b k).or (objGet a k) := by
  induction b with
  | nil => intro a k; rw [partialMerge, lastVal, Option.none_or]
  | cons e tl ih =>
    intro a k
    rw [partialMerge, ih, objGet_objUpsert, lastVal_cons, Option.or_assoc]
    by_cases h1 : e.1 = k
    · rw [if_pos h1, if_pos h1]
      rfl
    · rw [if_neg h1, if_neg h1, Option.none_or]

theorem objGet_eq_lastVal (p : PartialState) (k : List Char) (hnd : noDupKeys p = true) :
    lastVal p k = objGet p k := by
  induction p with
  | nil => rfl
  | cons e tl ih =>
    have hd := noDupKeys_cons_none e tl hnd
    rw [lastVal_cons, objGet_cons, ih hd.2]
    by_cases h1 : e.1 = k
    · rw [if_pos h1, if_pos h1]
      subst h1
      rw [hd.1, Option.none_or]
    · rw [if_neg h1, if_neg h1, Option.or_none]

theorem debounceRun_mutates (ms : List (PartialState × ChangeSource)) :
    ∀ (s : DebounceState),
      debounceRun s (ms.map (fun m => DebounceEvent.mutate m.1 m.2)) =
        (⟨stepPending s.pending ms, s.armed || !ms.isEmpty⟩, []) := by
  induction ms with
  | nil =>
    intro s
    rw [List.map_nil, debounceRun, List.isEmpty_nil, Bool.not_true, Bool.or_false]
    rfl
  | cons m tl ih =>
    intro s
    rw [List.map_cons]
    simp only [debounceRun]
    rw [ih]
    rw [show stepPending s.pending (m :: tl) =
          stepPending (some (match s.pending with
            | some q => (partialMerge q.1 m.1, m.2)
            | none => (m.1, m.2))) tl from rfl]
    rw [List.isEmpty_cons, Bool.not_false, Bool.or_true]
    rfl

theorem debounceRun_append (a b : List DebounceEvent) :
    ∀ (s : DebounceState),
      debounceRun s (a ++ b) =
        ((debounceRun (debounceRun s a).1 b).1,
         (debounceRun s a).2 ++ (debounceRun (debounceRun s a).1 b).2) := by
  induction a with
  | nil => intro s; rw [List.nil_append, debounceRun, List.nil_append]
  | cons e tl ih =>
    intro s
    rw [List.cons_append]
    simp only [debounceRun]
    rw [ih, List.append_assoc]

theorem stepPending_some (ms : List (PartialState × ChangeSource)) :
    ∀ (q0 : PartialState × ChangeSource), ∃ q, stepPending (some q0) ms = some q := by
  induction ms with
  | nil => intro q0; exact ⟨q0, rfl⟩
  | cons m tl ih =>
    intro q0
    rw [show stepPending (some q0) (m :: tl) =
          stepPending (some (partialMerge q0.1 m.1, m.2)) tl from rfl]
    exact ih _

theorem stepPending_lastVal (ms : List (PartialState × ChangeSource)) :
    ∀ (q0 : PartialState × ChangeSource) (q : PartialState × ChangeSource) (k : List Char),
      stepPending (some q0) ms = some q →
      objGet q.1 k = (lastBound ms k).or (objGet q0.1 k) := by
  induction ms with
  | nil =>
    intro q0 q k h
    rw [stepPending] at h
    cases h
    rw [lastBound, List.flatMap_nil, lastVal, Option.none_or]
  | cons m tl ih =>
    intro q0 q k h
    rw [show stepPending (some q0) (m :: tl) =
          stepPending (some (partialMerge q0.1 m.1, m.2)) tl from rfl] at h
    rw [ih (partialMerge q0.1 m.1, m.2) q k h]
    rw [show objGet (partialMerge q0.1 m.1, m.2).1 k = objGet (partialMerge q0.1 m.1) k from rfl]
    rw [objGet_partialMerge]
    simp only [lastBound]
    rw [List.flatMap_cons, lastVal_append, Option.or_assoc]

theorem pendingAfter_lastBound (ms : List (PartialState × ChangeSource))
    (q : PartialState × ChangeSource) (k : List Char)
    (hnd : ∀ m ∈ ms, noDupKeys m.1 = true)
    (h : pendingAfter ms = some q) : objGet q.1 k = lastBound ms k := by
  match ms with
  | [] => cases h
  | m :: tl =>
    rw [show pendingAfter (m :: tl) = stepPending (some (m.1, m.2)) tl from rfl] at h
    rw [stepPending_lastVal tl (m.1, m.2) q k h]
    rw [show objGet (m.1, m.2).1 k = objGet m.1 k from rfl]
    rw [← objGet_eq_lastVal m.1 k (hnd m (List.mem_cons_self m tl))]
    simp only [lastBound]
    rw [List.flatMap_cons, lastVal_append]

theorem pendingAfter_isSome (ms : List (PartialState × ChangeSource)) :
    (pendingAfter ms).isSome = !ms.isEmpty := by
  match ms with
  | [] => rfl
  | m :: tl =>
    rw [List.isEmpty_cons, Bool.not_false]
    obtain ⟨q, hq⟩ := stepPending_some tl (m.1, m.2)
    rw [show pendingAfter (m :: tl) = stepPending (some (m.1, m.2)) tl from rfl, hq]
    rfl

/-! ### What the URL writer does to individual query keys -/
theorem buildParamName_some (n : List Char) (hne : n.isEmpty = false) (f : List Char) :
    buildParamName (some n) f = n ++ '.' :: f := by
  simp [buildParamName, hne]

theorem buildParamName_owns (n : List Char) (hne : n.isEmpty = false) (f : List Char) :
    nsOwns n (buildParamName (some n) f) = true := by
  rw [buildParamName_some n hne f, nsOwns,
    show n ++ '.' :: f = (n ++ ['.']) ++ f by simp]
  exact List.isPrefixOf_iff_prefix.mpr (List.prefix_append _ _)

theorem writeEntry_preserves (ns : Option (List Char)) (codecs : CodecsMap) (ps ps2 : Params)
    (e : List Char × Option JVal) (k : List Char) (hk : buildParamName ns e.1 ≠ k)
    (hw : writeEntry ns codecs ps e = some ps2) :
    paramsGet ps2 k = paramsGet ps k := by
  cases he : e.2 with
  | none =>
    simp only [writeEntry, he] at hw
    injection hw with h
    subst h
    exact paramsGet_paramsDelete_ne ps (buildParamName ns e.1) k hk
  | some v =>
    simp only [writeEntry, he] at hw
    cases hc : codecs e.1 with
    | some c =>
      simp only [hc] at hw
      cases hf : c.format v with
      | none => rw [hf] at hw; cases hw
      | some enc =>
        rw [hf] at hw
        injection hw with h
        subst h
        exact paramsGet_paramsSet_ne ps (buildParamName ns e.1) enc k hk
    | none =>
      simp only [hc] at hw
      injection hw with h
      subst h
      exact paramsGet_paramsSet_ne ps (buildParamName ns e.1) _ k hk

theorem writeEntries_preserves (ns : Option (List Char)) (codecs : CodecsMap)
    (l : List (List Char × Option JVal)) :
    ∀ (ps ps2 : Params) (k : List Char),
      (∀ e ∈ l, buildParamName ns e.1 ≠ k) →
      writeEntries ns codecs ps l = some ps2 →
      paramsGet ps2 k = paramsGet ps k := by
  induction l with
  | nil =>
    intro ps ps2 k _ hw
    rw [writeEntries] at hw
    injection hw with h
    subst h
    rfl
  | cons e tl ih =>
    intro ps ps2 k hk hw
    rw [show writeEntries ns codecs ps (e :: tl) =
          (match writeEntry ns codecs ps e with
           | some ps1 => writeEntries ns codecs ps1 tl
           | none => none) from rfl] at hw
    cases hwe : writeEntry ns codecs ps e with
    | none => rw [hwe] at hw; cases hw
    | some ps1 =>
      rw [hwe] at hw
      rw [ih ps1 ps2 k (fun e2 he2 => hk e2 (List.mem_cons_of_mem e he2)) hw]
      exact writeEntry_preserves ns codecs ps ps1 e k (hk e (List.mem_cons_self e tl)) hwe

theorem writeToUrl_preserves (next : List (List Char × Option JVal)) (n : List Char)
    (hne : n.isEmpty = false) (codecs : CodecsMap) (hist : HistoryMode) (ps ps2 : Params)
    (k : List Char) (hk : nsOwns n k = false)
    (hw : writeToUrl next (some n) codecs hist ps = some ps2) :
    paramsGet ps2 k = paramsGet ps k := by
  rw [writeToUrl] at hw
  by_cases hcond : (next.isEmpty && nsTruthy (some n)) = true
  · rw [if_pos hcond] at hw
    injection hw with h
    subst h
    exact paramsGet_clearNsOwned_ne n ps k hk
  · rw [if_neg hcond] at hw
    refine writeEntries_preserves (some n) codecs next ps ps2 k ?_ hw
    intro e _ heq
    have hown : nsOwns n (buildParamName (some n) e.1) = true := buildParamName_owns n hne e.1
    rw [heq, hk] at hown
    cases hown

/-! ### What one api mutation does, split by outcome -/
theorem flushWrite_some_snd (cfg : UrlConfig) (prev : StateMap) (upd : PartialState)
    (src : ChangeSource) (ps : Params) (r : Params × (StateMap × ChangeSource))
    (hw : flushWrite cfg prev upd src ps = some r) :
    r.2 = (applyPartial prev (applySanitize cfg upd), src) := by
  simp only [flushWrite] at hw
  cases hw2 : writeToUrl (applySanitize cfg upd) cfg.ns cfg.codecs cfg.history ps with
  | none => rw [hw2] at hw; cases hw
  | some ps2 =>
    rw [hw2] at hw
    injection hw with h
    rw [← h]

theorem runMutation_params (cfg : UrlConfig) (snap : StateMap) (ps : Params)
    (next : StateMap) (upd : PartialState) (src : ChangeSource) :
    (runMutation cfg snap ps next upd src).params = ps ∨
      writeToUrl (applySanitize cfg upd) cfg.ns cfg.codecs cfg.history ps =
        some (runMutation cfg snap ps next upd src).params := by
  cases hw : flushWrite cfg snap upd src ps with
  | none => left; simp only [runMutation, hw]
  | some r =>
    right
    simp only [runMutation, hw]
    simp only [flushWrite] at hw
    cases hw2 : writeToUrl (applySanitize cfg upd) cfg.ns cfg.codecs cfg.history ps with
    | none => rw [hw2] at hw; cases hw
    | some ps2 =>
      rw [hw2] at hw
      injection hw with h
      rw [← h]

theorem runMutation_of_threw_false (cfg : UrlConfig) (snap : StateMap) (ps : Params)
    (next : StateMap) (upd : PartialState) (src : ChangeSource)
    (h : (runMutation cfg snap ps next upd src).threw = false) :
    (runMutation cfg snap ps next upd src).state = next ∧
      (runMutation cfg snap ps next upd src).events =
        [(applyPartial snap (applySanitize cfg upd), src)] := by
  cases hw : flushWrite cfg snap upd src ps with
  | none =>
    simp only [runMutation, hw] at h
    exact absurd h (by decide)
  | some r =>
    have hst : (runMutation cfg snap ps next upd src).state = next := by
      simp only [runMutation, hw]
    have hev : (runMutation cfg snap ps next upd src).events = [r.2] := by
      simp only [runMutation, hw]
    rw [hst, hev, flushWrite_some_snd cfg snap upd src ps r hw]
    exact ⟨rfl, rfl⟩

example : jsonDoc ("1.5".toList) = true := by decide

example : jsonDoc (" -0.5E+2 ".toList) = true := by decide

example : jsonDoc ("[1.5, \"a\"]".toList) = true := by decide

example : jsonDoc ("1e3".toList) = true := by decide

example : jsonDoc ("hello".toList) = false := by decide

example : jsonDoc ("user%2".toList) = false := by decide

example : jsonDoc ("true".toList) = true := by decide

/-! ### What the URL reader does entry by entry -/
theorem parseEntries_append (ns : Option (List Char)) (codecs : CodecsMap) (a b : Params) :
    ∀ out, parseEntries ns codecs out (a ++ b) =
      (parseEntries ns codecs out a).bind (fun o => parseEntries ns codecs o b) := by
  induction a with
  | nil => intro out; rw [List.nil_append, parseEntries, Option.some_bind]
  | cons e tl ih =>
    intro out
    rw [List.cons_append]
    rw [show parseEntries ns codecs out (e :: (tl ++ b)) =
          (match parseStep ns codecs out e with
           | some out2 => parseEntries ns codecs out2 (tl ++ b)
           | none => none) from rfl]
    rw [show parseEntries ns codecs out (e :: tl) =
          (match parseStep ns codecs out e with
           | some out2 => parseEntries ns codecs out2 tl
           | none => none) from rfl]
    cases hse : parseStep ns codecs out e with
    | none => rfl
    | some o2 =>
      show parseEntries ns codecs o2 (tl ++ b) =
        (parseEntries ns codecs o2 tl).bind fun o => parseEntries ns codecs o b
      exact ih o2

theorem noDupKeys_parseStep (ns : Option (List Char)) (codecs : CodecsMap)
    (out out2 : List (List Char × JVal)) (e : List Char × List Char)
    (hst : parseStep ns codecs out e = some out2)
    (h : noDupKeys out = true) : noDupKeys out2 = true := by
  cases h1 : stripNs ns e.1 with
  | none =>
    simp only [parseStep, h1] at hst
    injection hst with hh
    subst hh
    exact h
  | some key =>
    cases h2 : codecs key with
    | some c =>
      cases h3 : c.parse e.2 with
      | some x =>
        simp only [parseStep, h1, h2, h3] at hst
        injection hst with hh
        subst hh
        exact noDupKeys_objUpsert out key x h
      | none =>
        simp only [parseStep, h1, h2, h3] at hst
        injection hst with hh
        subst hh
        exact h
    | none =>
      cases h3 : defaultUrlDeserializeStrict e.2 with
      | some x =>
        simp only [parseStep, h1, h2, h3] at hst
        injection hst with hh
        subst hh
        exact noDupKeys_objUpsert out key x h
      | none =>
        simp only [parseStep, h1, h2, h3] at hst
        exact Option.noConfusion hst

theorem noDupKeys_parseEntries (ns : Option (List Char)) (codecs : CodecsMap) (ps : Params) :
    ∀ out out2, parseEntries ns codecs out ps = some out2 →
      noDupKeys out = true → noDupKeys out2 = true := by
  induction ps with
  | nil =>
    intro out out2 hpe h
    rw [parseEntries] at hpe
    injection hpe with hh
    subst hh
    exact h
  | cons e tl ih =>
    intro out out2 hpe h
    rw [show parseEntries ns codecs out (e :: tl) =
          (match parseStep ns codecs out e with
           | some o2 => parseEntries ns codecs o2 tl
           | none => none) from rfl] at hpe
    cases hse : parseStep ns codecs out e with
    | none => rw [hse] at hpe; cases hpe
    | some o2 =>
      rw [hse] at hpe
      exact ih o2 out2 hpe (noDupKeys_parseStep ns codecs out o2 e hse h)

theorem noDupKeys_parseFromUrl (ns : Option (List Char)) (codecs : CodecsMap) (ps : Params)
    (out : List (List Char × JVal)) (hp : parseFromUrl ns codecs ps = some out) :
    noDupKeys out = true :=
  noDupKeys_parseEntries ns codecs ps [] out hp rfl

/-! ### The claims -/
/-- C1: the claim says a string value committed through the default
serializer is percent-encoded exactly once, so that writing
`"john@example.com"` for `email` under namespace `"filter"` puts
`filter.email=john%40example.com` in the query text, never
`john%2540example.com`.  The code does the opposite: `defaultUrlSerialize`
pre-encodes and `URLSearchParams.toString` encodes again, so the committed
pair's stored value is the once-encoded `john%40example.com`, and the
serialized query text reads `filter.email=john%2540example.com`.  (The
repository's own serialization test-suite asserts the claimed single
encoding, so this is a defect of the shipped writer, not of the claim's
intent; the fixed serializer `urlSerializeForParams` exists but is unused
by `writeToUrl`.) -/
theorem C1_double_encoding :
    writeToUrl [("email".toList, some (JVal.str "john@example.com".toList))]
        (some "filter".toList) noCodecs HistoryMode.replace [] =
      some [("filter.email".toList, "john%40example.com".toList)] ∧
    serializeParams [("filter.email".toList, "john%40example.com".toList)] =
      "filter.email=john%2540example.com".toList ∧
    "filter.email=john%2540example.com".toList ≠
      "filter.email=john%40example.com".toList := by
  exact ⟨by decide, by decide, by decide⟩

/-- C8: the claim says decoding a raw query value never throws and a
malformed escape such as `"user%2"` yields the literal text.  The
deserializer that `parseFromUrl` imports (`src/lib/utils/defaultUrlDeserialize.ts`)
calls `decodeURIComponent` outside any try/catch, so it throws a `URIError`
on `"user%2"` (modelled as `none`); the guarded variant shipped alongside
(src/unnamed/part_000), which the repository's tests pin, indeed returns the
literal text. -/
theorem C8_malformed_escape :
    defaultUrlDeserializeStrict ("user%2".toList) = none ∧
    defaultUrlDeserialize ("user%2".toList) = JVal.str ("user%2".toList) := by
  exact ⟨by decide, by decide⟩

/-- C3 (amended): `parse(format(v)) = v` holds for every well-formed value
except for strings whose own text is a parseable JSON document — those come
back as the parsed value, not the string (the spec's own accepted ambiguity:
the literal text "true" round-trips as the boolean).  Two hypotheses bound
the string case: `hdoc` excludes, via the full-grammar recognizer `jsonDoc`,
every text the real `JSON.parse` accepts — fraction and exponent numerals
such as "1.5"/"1e3" and escape forms outside the integer model included —
so the program really does fall back to the string there; `hs` additionally
records that the embedded integer-JSON parser fails, which the conclusion's
computation uses. -/
theorem C3_default_roundtrip (v : JVal) (hwf : jwf v = true)
    (hdoc : ((strPayload v).map jsonDoc).getD false = false)
    (hs : ((strPayload v).map jsonParse).getD none = none) :
    defaultUrlDeserialize (defaultUrlSerialize v) = v := by
  cases v with
  | str s =>
    have hjson : jsonParse s = none := by simpa [strPayload] using hs
    simp only [defaultUrlSerialize, defaultUrlDeserialize, decodeUri_encodeUri,
      Option.getD_some, hjson, Option.getD_none]
  | null =>
    simp only [defaultUrlSerialize, defaultUrlDeserialize, decodeUri_encodeUri,
      Option.getD_some, jsonParse_stringify _ hwf]
  | bool b =>
    simp only [defaultUrlSerialize, defaultUrlDeserialize, decodeUri_encodeUri,
      Option.getD_some, jsonParse_stringify _ hwf]
  | num i =>
    simp only [defaultUrlSerialize, defaultUrlDeserialize, decodeUri_encodeUri,
      Option.getD_some, jsonParse_stringify _ hwf]
  | arr es =>
    simp only [defaultUrlSerialize, defaultUrlDeserialize, decodeUri_encodeUri,
      Option.getD_some, jsonParse_stringify _ hwf]
  | obj fs =>
    simp only [defaultUrlSerialize, defaultUrlDeserialize, decodeUri_encodeUri,
      Option.getD_some, jsonParse_stringify _ hwf]

/-- C3, counterexample to the unamended claim: the string value `"true"`
serializes to the query text `true`, which deserializes to the boolean
`true`, not back to the string. -/
theorem C3_counterexample :
    defaultUrlDeserialize (defaultUrlSerialize (JVal.str ("true".toList))) = JVal.bool true ∧
    defaultUrlDeserialize (defaultUrlSerialize (JVal.str ("true".toList))) ≠
      JVal.str ("true".toList) := by
  exact ⟨by decide, by decide⟩

/-- C3, witness: the ordinary string `"hello"` — not a JSON document under
the full grammar — round-trips unchanged. -/
theorem C3_witness :
    defaultUrlDeserialize (defaultUrlSerialize (JVal.str ("hello".toList))) =
      JVal.str ("hello".toList) :=
  C3_default_roundtrip (JVal.str ("hello".toList)) (by decide) (by decide) (by decide)

/-- C2: every api mutation (set, patch, remove, clear and setState all run
through `runMutation`) of an instance configured with a truthy namespace `n`
leaves every query key it does not own — any key not starting with `n + "."`
— exactly as it was. -/
theorem C2_namespace_isolation (cfg : UrlConfig) (n : List Char)
    (hns : cfg.ns = some n) (hne : n.isEmpty = false)
    (snap next : StateMap) (upd : PartialState) (src : ChangeSource)
    (ps : Params) (k : List Char) (hk : nsOwns n k = false) :
    paramsGet (runMutation cfg snap ps next upd src).params k = paramsGet ps k := by
  rcases runMutation_params cfg snap ps next upd src with h | h
  · rw [h]
  · rw [hns] at h
    exact writeToUrl_preserves (applySanitize cfg upd) n hne cfg.codecs cfg.history ps
      ((runMutation cfg snap ps next upd src).params) k hk h

/-- C2, witness: an `api.set` of field `q` under namespace `"users"` leaves
the foreign key `products.q` untouched. -/
theorem C2_witness :
    paramsGet (runMutation cfgUsers [] [("products.q".toList, "1".toList)]
        [("q".toList, JVal.num 2)] [("q".toList, some (JVal.num 2))]
        ChangeSource.patch).params ("products.q".toList) =
      paramsGet [("products.q".toList, "1".toList)] ("products.q".toList) :=
  C2_namespace_isolation cfgUsers ("users".toList) rfl (by decide) []
    [("q".toList, JVal.num 2)] [("q".toList, some (JVal.num 2))] ChangeSource.patch
    [("products.q".toList, "1".toList)] ("products.q".toList) (by decide)

/-- C10: `clear()` on an instance with no namespace empties the snapshot but
the empty-payload write deletes nothing: every query key survives, no error
is thrown, and `onChange` receives the flush-time snapshot merged with the
empty payload. -/
theorem C10_clear_no_namespace (cfg : UrlConfig) (hns : cfg.ns = none)
    (hsan : cfg.sanitize = none) (snap : StateMap) (ps : Params) :
    apiClear cfg snap ps = ⟨[], ps, [(snap, ChangeSource.patch)], false⟩ := by
  have hflush : flushWrite cfg snap [] ChangeSource.patch ps =
      some (ps, (snap, ChangeSource.patch)) := by
    simp only [flushWrite, applySanitize, hsan]
    rw [hns]
    rfl
  rw [show apiClear cfg snap ps = runMutation cfg snap ps [] [] ChangeSource.patch from rfl]
  simp only [runMutation, hflush]

/-- C10, witness: clearing with no namespace keeps the pre-existing `a` key. -/
theorem C10_witness :
    apiClear cfgPlain [("a".toList, JVal.num 1)] [("a".toList, "1".toList)] =
      ⟨[], [("a".toList, "1".toList)], [([("a".toList, JVal.num 1)], ChangeSource.patch)],
        false⟩ :=
  C10_clear_no_namespace cfgPlain rfl rfl [("a".toList, JVal.num 1)] [("a".toList, "1".toList)]

/-- C4 (amended): a popstate with sync enabled, *whenever the URL read
succeeds*, rewrites nothing in the URL, throws nothing, emits the merged
state with source `"external"`, and merges field by field: a field bound by
the URL-derived partial takes that value, a field absent from it keeps its
prior snapshot value.  The success hypothesis is needed because the shipped
`parseFromUrl` imports the strict `defaultUrlDeserialize`: a malformed
percent-escape in a codec-less value makes the read — and with it the whole
popstate handler — throw before any merge (see the counterexample). -/
theorem C4_popstate_merge (cfg : UrlConfig) (hsan : cfg.sanitize = none)
    (snap : StateMap) (ps : Params) (parsed : List (List Char × JVal)) (k : List Char)
    (hp : parseFromUrl cfg.ns cfg.codecs ps = some parsed) :
    (popstateStep true cfg snap ps).params = ps ∧
    (popstateStep true cfg snap ps).threw = false ∧
    (popstateStep true cfg snap ps).events =
      [((popstateStep true cfg snap ps).state, ChangeSource.external)] ∧
    objGet (popstateStep true cfg snap ps).state k =
      (objGet parsed k).or (objGet snap k) := by
  have hstep : popstateStep true cfg snap ps =
      ⟨applyPartial snap (applySanitize cfg (toPartial parsed)), ps,
       [(applyPartial snap (applySanitize cfg (toPartial parsed)), ChangeSource.external)],
       false⟩ := by
    simp only [popstateStep, hp, if_true]
  rw [hstep]
  refine ⟨rfl, rfl, rfl, ?_⟩
  show objGet (applyPartial snap (applySanitize cfg (toPartial parsed))) k = _
  simp only [applySanitize, hsan]
  exact objGet_applyPartial_toPartial parsed snap k
    (noDupKeys_parseFromUrl cfg.ns cfg.codecs ps parsed hp)

/-- C4, counterexample to the unamended claim: with the URL holding
`ns.q=user%2` (a raw value `URLSearchParams` yields verbatim, its escape
being invalid), the strict decoder throws inside the popstate handler: the
snapshot is not merged, no `onChange` fires, and the error escapes — the
claim's unconditional merge/onChange behaviour fails. -/
theorem C4_counterexample :
    parseFromUrl cfgNsQ.ns cfgNsQ.codecs [("ns.q".toList, "user%2".toList)] = none ∧
    (popstateStep true cfgNsQ [("page".toList, JVal.num 3)]
        [("ns.q".toList, "user%2".toList)]).threw = true ∧
    (popstateStep true cfgNsQ [("page".toList, JVal.num 3)]
        [("ns.q".toList, "user%2".toList)]).state = [("page".toList, JVal.num 3)] ∧
    (popstateStep true cfgNsQ [("page".toList, JVal.num 3)]
        [("ns.q".toList, "user%2".toList)]).events = [] := by
  exact ⟨by decide, by decide, by decide, by decide⟩

/-- C4, witness: snapshot `q:"abc", page:3` with the URL holding only
`ns.q=xyz` reads successfully, keeps `page` and overwrites `q`. -/
theorem C4_witness :
    (popstateStep true cfgNsQ [("q".toList, JVal.str ("abc".toList)), ("page".toList, JVal.num 3)]
        [("ns.q".toList, "xyz".toList)]).params = [("ns.q".toList, "xyz".toList)] ∧
    (popstateStep true cfgNsQ [("q".toList, JVal.str ("abc".toList)), ("page".toList, JVal.num 3)]
        [("ns.q".toList, "xyz".toList)]).threw = false ∧
    (popstateStep true cfgNsQ [("q".toList, JVal.str ("abc".toList)), ("page".toList, JVal.num 3)]
        [("ns.q".toList, "xyz".toList)]).events =
      [((popstateStep true cfgNsQ [("q".toList, JVal.str ("abc".toList)), ("page".toList, JVal.num 3)]
        [("ns.q".toList, "xyz".toList)]).state, ChangeSource.external)] ∧
    objGet (popstateStep true cfgNsQ [("q".toList, JVal.str ("abc".toList)), ("page".toList, JVal.num 3)]
        [("ns.q".toList, "xyz".toList)]).state ("q".toList) =
      (objGet [("q".toList, JVal.str ("xyz".toList))] ("q".toList)).or
        (objGet [("q".toList, JVal.str ("abc".toList)), ("page".toList, JVal.num 3)] ("q".toList)) :=
  C4_popstate_merge cfgNsQ rfl
    [("q".toList, JVal.str ("abc".toList)), ("page".toList, JVal.num 3)]
    [("ns.q".toList, "xyz".toList)] [("q".toList, JVal.str ("xyz".toList))] ("q".toList)
    (by decide)

theorem debounceRun_fire (ms : List (PartialState × ChangeSource)) :
    (debounceRun ⟨none, false⟩
        (ms.map (fun m => DebounceEvent.mutate m.1 m.2) ++ [DebounceEvent.fire])).2 =
      (pendingAfter ms).toList := by
  rw [debounceRun_append, debounceRun_mutates ms ⟨none, false⟩]
  cases ms with
  | nil => rfl
  | cons m tl =>
    obtain ⟨q, hq⟩ := stepPending_some tl (m.1, m.2)
    have hpend : pendingAfter (m :: tl) = some q := hq
    rw [show stepPending (none : Option (PartialState × ChangeSource)) (m :: tl) =
          some q from hq, hpend]
    rfl

/-- C5: with a positive debounce, a run of mutations emits no write at all
while the window is open; the single timer firing afterwards hands exactly
the one merged pending payload to the flusher (none at all when nothing was
scheduled), and that payload binds each field to the latest value any
mutation in the window gave it. -/
theorem C5_debounce_coalescing (ms : List (PartialState × ChangeSource)) (k : List Char)
    (hnd : ∀ m ∈ ms, noDupKeys m.1 = true) :
    (debounceRun ⟨none, false⟩ (ms.map (fun m => DebounceEvent.mutate m.1 m.2))).2 = [] ∧
    (debounceRun ⟨none, false⟩
        (ms.map (fun m => DebounceEvent.mutate m.1 m.2) ++ [DebounceEvent.fire])).2 =
      (pendingAfter ms).toList ∧
    (pendingAfter ms).isSome = !ms.isEmpty ∧
    (∀ q, pendingAfter ms = some q → objGet q.1 k = lastBound ms k) := by
  refine ⟨?_, debounceRun_fire ms, pendingAfter_isSome ms,
    fun q hq => pendingAfter_lastBound ms q k hnd hq⟩
  rw [debounceRun_mutates ms ⟨none, false⟩]

/-- C5, witness: three `set` calls on field `a` (values 1, 2, 4, with `b` 3
in between) coalesce into one write whose payload binds `a` to 4. -/
theorem C5_witness :
    (debounceRun ⟨none, false⟩ (msW.map (fun m => DebounceEvent.mutate m.1 m.2))).2 = [] ∧
    (debounceRun ⟨none, false⟩
        (msW.map (fun m => DebounceEvent.mutate m.1 m.2) ++ [DebounceEvent.fire])).2 =
      (pendingAfter msW).toList ∧
    (pendingAfter msW).isSome = !msW.isEmpty ∧
    (∀ q, pendingAfter msW = some q → objGet q.1 ("a".toList) = lastBound msW ("a".toList)) :=
  C5_debounce_coalescing msW ("a".toList) (by decide)

/-- C6 (amended): `setState` schedules exactly the defined bindings of the
replacement, tagged `"set"`, and a stale query key named by no defined
binding survives — except in the edge case the original claim missed: when
the replacement has no defined key at all and a namespace is configured, the
empty payload is treated as a clear and the namespace's stale keys are
deleted.  That case is excluded by hypothesis here and exhibited by the
counterexample. -/
theorem C6_setState_writes_defined (cfg : UrlConfig) (hsan : cfg.sanitize = none)
    (snap : StateMap) (ps : Params) (next : PartialState) (k : List Char)
    (hne : definedEntries next ≠ [] ∨ nsTruthy cfg.ns = false)
    (hk : ∀ e ∈ definedEntries next, buildParamName cfg.ns e.1 ≠ k) :
    paramsGet (apiSetState cfg snap ps next).params k = paramsGet ps k ∧
    ((apiSetState cfg snap ps next).threw = false →
      (apiSetState cfg snap ps next).state = definedState next ∧
      (apiSetState cfg snap ps next).events =
        [(applyPartial snap (definedEntries next), ChangeSource.set)]) := by
  constructor
  · rcases runMutation_params cfg snap ps (definedState next) (definedEntries next)
      ChangeSource.set with h | h
    · rw [apiSetState, h]
    · rw [apiSetState]
      simp only [applySanitize, hsan] at h
      rw [writeToUrl] at h
      have hcond : ((definedEntries next).isEmpty && nsTruthy cfg.ns) = false := by
        rcases hne with h1 | h1
        · have h2 : (definedEntries next).isEmpty = false := by
            cases hh : definedEntries next with
            | nil => exact absurd hh h1
            | cons a tl => rfl
          rw [h2, Bool.false_and]
        · rw [h1, Bool.and_false]
      rw [if_neg (by rw [hcond]; exact Bool.false_ne_true)] at h
      exact writeEntries_preserves cfg.ns cfg.codecs (definedEntries next) ps _ k hk h
  · intro ht
    obtain ⟨hst, hev⟩ := runMutation_of_threw_false cfg snap ps (definedState next)
      (definedEntries next) ChangeSource.set ht
    refine ⟨hst, ?_⟩
    rw [show apiSetState cfg snap ps next =
          runMutation cfg snap ps (definedState next) (definedEntries next) ChangeSource.set
        from rfl, hev]
    simp only [applySanitize, hsan]

/-- C6, counterexample to the unamended claim: replacing the whole state by
one with no defined key, under namespace `"users"`, deletes the stale key
`users.q` from the URL even though no removal named it (the empty payload
takes `writeToUrl`'s clear fast path). -/
theorem C6_counterexample :
    paramsGet [("users.q".toList, "abc".toList), ("other".toList, "1".toList)]
      ("users.q".toList) = some ("abc".toList) ∧
    (apiSetState cfgUsers []
        [("users.q".toList, "abc".toList), ("other".toList, "1".toList)]
        [("q".toList, (none : Option JVal))]).threw = false ∧
    paramsGet (apiSetState cfgUsers []
        [("users.q".toList, "abc".toList), ("other".toList, "1".toList)]
        [("q".toList, (none : Option JVal))]).params ("users.q".toList) = none := by
  exact ⟨by decide, by decide, by decide⟩

/-- C6, witness: a replace whose defined keys are `q` only, under namespace
`"users"`, keeps the unrelated stale key `users.old` and commits the state
`q = 2` tagged `"set"`. -/
theorem C6_witness :
    paramsGet (apiSetState cfgUsers [] [("users.old".toList, "x".toList)]
        [("q".toList, some (JVal.num 2)), ("gone".toList, (none : Option JVal))]).params
      ("users.old".toList) = paramsGet [("users.old".toList, "x".toList)] ("users.old".toList) ∧
    ((apiSetState cfgUsers [] [("users.old".toList, "x".toList)]
        [("q".toList, some (JVal.num 2)), ("gone".toList, (none : Option JVal))]).threw = false →
      (apiSetState cfgUsers [] [("users.old".toList, "x".toList)]
        [("q".toList, some (JVal.num 2)), ("gone".toList, (none : Option JVal))]).state =
        definedState [("q".toList, some (JVal.num 2)), ("gone".toList, (none : Option JVal))] ∧
      (apiSetState cfgUsers [] [("users.old".toList, "x".toList)]
        [("q".toList, some (JVal.num 2)), ("gone".toList, (none : Option JVal))]).events =
        [(applyPartial []
            (definedEntries [("q".toList, some (JVal.num 2)), ("gone".toList, (none : Option JVal))]),
          ChangeSource.set)]) :=
  C6_setState_writes_defined cfgUsers rfl [] [("users.old".toList, "x".toList)]
    [("q".toList, some (JVal.num 2)), ("gone".toList, (none : Option JVal))]
    ("users.old".toList) (Or.inl (by decide)) (by decide)

/-- C7 (amended): when a field's codec `format` throws during an undebounced
`api.set`, the error does propagate synchronously to the caller — but,
because `scheduleWrite` runs inside the functional updater before it returns,
the aborted updater also abandons the snapshot update: the hook keeps its
previous state, the URL is untouched and no `onChange` fires.  Snapshot and
URL do not diverge; the claim's "snapshot update is not rolled back" is the
part that fails (see the counterexample). -/
theorem C7_format_error (cfg : UrlConfig) (hsan : cfg.sanitize = none)
    (snap : StateMap) (ps : Params) (k : List Char) (v : JVal) (c : Codec)
    (hc : cfg.codecs k = some c) (hf : c.format v = none) :
    apiSet cfg snap ps k (some v) = ⟨snap, ps, [], true⟩ := by
  have hentry : writeEntry cfg.ns cfg.codecs ps (k, some v) = none := by
    rw [show writeEntry cfg.ns cfg.codecs ps (k, some v) =
          (match cfg.codecs k with
           | some c => Option.map (fun enc => paramsSet ps (buildParamName cfg.ns k) enc)
               (c.format v)
           | none => some (paramsSet ps (buildParamName cfg.ns k) (defaultUrlSerialize v)))
        from rfl]
    simp only [hc, hf]
    rfl
  have hflush : flushWrite cfg snap [(k, some v)] ChangeSource.patch ps = none := by
    simp only [flushWrite, applySanitize, hsan]
    rw [show writeToUrl [(k, some v)] cfg.ns cfg.codecs cfg.history ps =
          (match writeEntry cfg.ns cfg.codecs ps (k, some v) with
           | some ps1 => writeEntries cfg.ns cfg.codecs ps1 []
           | none => none) from rfl]
    simp only [hentry]
    rfl
  rw [show apiSet cfg snap ps k (some v) =
        runMutation cfg snap ps (objUpsert snap k v) [(k, some v)] ChangeSource.patch from rfl]
  simp only [runMutation, hflush]

/-- C7, counterexample to the unamended claim: with a throwing codec on `n`,
`api.set("n", 2)` from snapshot `n = 1` throws, yet the snapshot stays
`n = 1` — the in-memory update is lost along with the URL write, so there is
no snapshot/URL divergence to observe. -/
theorem C7_counterexample :
    (apiSet cfgThrow [("n".toList, JVal.num 1)] [] ("n".toList) (some (JVal.num 2))).threw
      = true ∧
    (apiSet cfgThrow [("n".toList, JVal.num 1)] [] ("n".toList) (some (JVal.num 2))).state =
      [("n".toList, JVal.num 1)] ∧
    (apiSet cfgThrow [("n".toList, JVal.num 1)] [] ("n".toList) (some (JVal.num 2))).state ≠
      objUpsert [("n".toList, JVal.num 1)] ("n".toList) (JVal.num 2) := by
  exact ⟨by decide, by decide, by decide⟩

/-- C7, witness: the amended statement at the same concrete inputs. -/
theorem C7_witness :
    apiSet cfgThrow [("n".toList, JVal.num 1)] [] ("n".toList) (some (JVal.num 2)) =
      ⟨[("n".toList, JVal.num 1)], [], [], true⟩ :=
  C7_format_error cfgThrow rfl [("n".toList, JVal.num 1)] [] ("n".toList) (JVal.num 2)
    cThrow rfl rfl

/-- C9: a query pair whose field has a codec that throws on its raw value is
simply skipped by `parseFromUrl` — the read (result and throw behaviour
alike, over the strict codec-less decoder) is exactly what it would be had
the pair not been present: the codec's error never escapes, its field is
dropped, every sibling pair parses as before. -/
theorem C9_parse_error_isolation (ns : Option (List Char)) (codecs : CodecsMap)
    (pre post : Params) (e0 : List Char × List Char) (f : List Char) (c : Codec)
    (hf : stripNs ns e0.1 = some f) (hc : codecs f = some c) (hp : c.parse e0.2 = none) :
    parseFromUrl ns codecs (pre ++ e0 :: post) = parseFromUrl ns codecs (pre ++ post) := by
  have hstep : ∀ out, parseStep ns codecs out e0 = some out := by
    intro out
    simp only [parseStep, hf, hc, hp]
  rw [parseFromUrl, parseFromUrl]
  rw [show (pre ++ e0 :: post) = pre ++ ([e0] ++ post) by simp]
  rw [parseEntries_append ns codecs pre ([e0] ++ post), parseEntries_append ns codecs pre post]
  cases hpre : parseEntries ns codecs [] pre with
  | none => rfl
  | some o =>
    rw [Option.some_bind, Option.some_bind]
    rw [show parseEntries ns codecs o ([e0] ++ post) =
          (match parseStep ns codecs o e0 with
           | some o2 => parseEntries ns codecs o2 post
           | none => none) from rfl]
    simp only [hstep]

/-- C9, witness: with a throwing codec on `page`, the pair `page=invalid` is
dropped and the sibling `q=abc` reads as if `page` were absent. -/
theorem C9_witness :
    parseFromUrl none pageCodecs
        ([("q".toList, "abc".toList)] ++ ("page".toList, "invalid".toList) :: []) =
      parseFromUrl none pageCodecs ([("q".toList, "abc".toList)] ++ []) :=
  C9_parse_error_isolation none pageCodecs [("q".toList, "abc".toList)] []
    ("page".toList, "invalid".toList) ("page".toList) cThrow (by decide) rfl rfl
